import Mathlib
/-!
# Verification of the RipeStore catalog pipeline
A shallow embedding of the catalog viewer's core pipeline: the semantic
version comparator (`semverCompare` in `utils.js`), date parsing
(`parseDateString` in `utils.js`), merge-by-bundle (`mergeByBundle` in
`app.js`), the controller's filter/sort step (`filterAndPrepare` and
`sortApps` in `app.js`), the ranked search wrapper (`searchApps` in
`search.js`), and the strict normalizer constructors (`ASRepository` in
`alt-source-kit.js`).
Modelling conventions:
* JavaScript numbers are modelled as `Int` (epoch milliseconds, comparator
  results) or `ℚ` (relevance scores); the values involved are far below
  2^53, where double arithmetic is exact for integers and the order of
  small decimal fractions agrees with the rational order.
* A JS string field that may be `undefined`/`null` is modelled as a
  `String` with `""` for the absent value; the code only ever observes such
  fields through truthiness or through parsers that fail on non-strings and
  empty strings, which cannot distinguish `""` from `null`/`undefined`.
* `Array.prototype.sort(cmp)` (ES2019: stable; a comparator returning NaN
  is coerced to `0`) is modelled by a stable insertion sort `jsSort` over
  the strict relation `cmp a b < 0`.
* Heap identity of app records is modelled by an `ident : Option Nat` tag:
  input records carry `some i` (pairwise distinct), records freshly
  allocated by a spread copy carry `none`.
-/

/-! ## A stable sort modelling `Array.prototype.sort` -/

/-- Insert `a` into `l`, placing it before the first element `b` with
`lt a b` and after every earlier element.  Inserting each element of a list
in order with this function yields a stable sort, matching the ES2019
requirement that `Array.prototype.sort` be stable. -/
def insertStable {α : Type} (lt : α → α → Bool) (a : α) : List α → List α
  | [] => [a]
  | b :: t => if lt a b then a :: b :: t else b :: insertStable lt a t

/-- Stable sort by the strict relation `lt a b` (modelling a JS comparator
`cmp` via `lt a b = (cmp a b < 0)`). -/
def jsSort {α : Type} (lt : α → α → Bool) (l : List α) : List α :=
  l.foldl (fun acc a => insertStable lt a acc) []

/-! ## JS string primitives -/

/-- Code-unit lexicographic strict order on character lists, modelling the
JavaScript `<` operator on strings (UTF-16 code-unit order; for the
basic-multilingual-plane strings handled here this agrees with code-point
order). -/
def strLtList : List Char → List Char → Bool
  | [], [] => false
  | [], _ :: _ => true
  | _ :: _, [] => false
  | a :: as, b :: bs =>
    if a.toNat < b.toNat then true
    else if b.toNat < a.toNat then false
    else strLtList as bs

/-- JS `a < b` on strings. -/
def jsStrLt (a b : String) : Bool := strLtList a.data b.data

/-- JS `String.prototype.toLowerCase`, modelled character-wise (ASCII
case folding; the catalog data handled by the claims is ASCII). -/
def lowerStr (s : String) : String := ⟨s.data.map Char.toLower⟩

/-- JS `String.prototype.startsWith`. -/
def strStarts (s pre : String) : Bool := pre.data.isPrefixOf s.data

/-- Does `n` occur as a contiguous sublist of the second argument?  Models
JS `String.prototype.includes`. -/
def subListOf (n : List Char) : List Char → Bool
  | [] => n.isEmpty
  | c :: t => n.isPrefixOf (c :: t) || subListOf n t

/-- JS `s.includes(sub)`. -/
def strIncludes (s sub : String) : Bool := subListOf sub.data s.data

/-- Whitespace trimming on character lists (JS `String.prototype.trim`;
`Char.isWhitespace` covers the ASCII whitespace the catalog data uses). -/
def trimChars (l : List Char) : List Char :=
  ((l.dropWhile Char.isWhitespace).reverse.dropWhile Char.isWhitespace).reverse

/-- JS `s.trim()`. -/
def jsTrim (s : String) : String := ⟨trimChars s.data⟩

/-! ## The semantic-version comparator (`semverCompare`, `src/utils.js`)

```js
export function semverCompare(a, b) {
  const seg = s => String(s || "").split(/[.+\-]/).map(x => isNaN(+x) ? x : +x);
  const A = seg(a), B = seg(b), n = Math.max(A.length, B.length);
  for (let i = 0; i < n; i++) {
    const x = A[i], y = B[i];
    if (x === undefined) return -1;
    if (y === undefined) return 1;
    if (typeof x === typeof y) {
      if (x < y) return -1;
      if (x > y) return 1;
    } else {
      return (typeof x === 'number') ? 1 : -1
    }
  }
  return 0;
}
```
-/

/-- A JS number produced by unary `+` coercion of a separator-free version
segment: either a finite value or `Infinity` (e.g. `+"Infinity"` or an
overflowing exponent).  `NaN` is represented by `Option.none` at the
coercion site (`isNaN(+x)` keeps the segment textual). -/
inductive JNum
  | fin (q : ℚ)
  | inf
deriving DecidableEq, Repr

/-- JS `<` on the numbers that can arise from segment coercion. -/
def jnumLt : JNum → JNum → Bool
  | .fin a, .fin b => a < b
  | .fin _, .inf => true
  | .inf, _ => false

def digitVal (c : Char) : Nat := c.toNat - 48

def natOfDigits (l : List Char) : Nat := l.foldl (fun a c => a * 10 + digitVal c) 0

def isHexDigit (c : Char) : Bool := c.isDigit || ('a' ≤ c && c ≤ 'f') || ('A' ≤ c && c ≤ 'F')

def hexVal (c : Char) : Nat :=
  if c.isDigit then c.toNat - 48
  else if 'a' ≤ c && c ≤ 'f' then c.toNat - 87
  else c.toNat - 55

def natOfHexDigits (l : List Char) : Nat := l.foldl (fun a c => a * 16 + hexVal c) 0

/-- JS `+x` (the ECMAScript `StringToNumber` coercion) restricted to the
strings a separator-free segment can be: whitespace-trimmed empty string is
`0`; `Infinity`; hexadecimal / octal / binary literals; decimal digits with
an optional unsigned exponent (`'.'`, `'+'`, `'-'` cannot occur, they are
split separators).  Everything else is `NaN`, returned as `none`.
Divergence note: values above the IEEE-754 range stay finite here instead
of overflowing to `Infinity`, and no double rounding is modelled; the
claims only involve small integer segments, where the two semantics agree.
-/
def jsToNumber (s : String) : Option JNum :=
  let t := trimChars s.data
  if t.isEmpty then some (.fin 0)
  else if t = "Infinity".data then some .inf
  else
    match t with
    | '0' :: 'x' :: rest =>
      if !rest.isEmpty && rest.all isHexDigit then some (.fin (natOfHexDigits rest)) else none
    | '0' :: 'X' :: rest =>
      if !rest.isEmpty && rest.all isHexDigit then some (.fin (natOfHexDigits rest)) else none
    | '0' :: 'o' :: rest =>
      if !rest.isEmpty && rest.all (fun c => '0' ≤ c && c ≤ '7')
      then some (.fin (rest.foldl (fun a c => a * 8 + digitVal c) 0)) else none
    | '0' :: 'O' :: rest =>
      if !rest.isEmpty && rest.all (fun c => '0' ≤ c && c ≤ '7')
      then some (.fin (rest.foldl (fun a c => a * 8 + digitVal c) 0)) else none
    | '0' :: 'b' :: rest =>
      if !rest.isEmpty && rest.all (fun c => c = '0' || c = '1')
      then some (.fin (rest.foldl (fun a c => a * 2 + digitVal c) 0)) else none
    | '0' :: 'B' :: rest =>
      if !rest.isEmpty && rest.all (fun c => c = '0' || c = '1')
      then some (.fin (rest.foldl (fun a c => a * 2 + digitVal c) 0)) else none
    | _ =>
      match List.splitOn 'e' (t.map (fun c => if c = 'E' then 'e' else c)) with
      | [m] =>
        if !m.isEmpty && m.all Char.isDigit then some (.fin (natOfDigits m)) else none
      | [m, e] =>
        if !m.isEmpty && m.all Char.isDigit && !e.isEmpty && e.all Char.isDigit
        then some (.fin (natOfDigits m * 10 ^ natOfDigits e)) else none
      | _ => none

/-- One version segment after `map(x => isNaN(+x) ? x : +x)`: a JS number
or the original text. -/
inductive Seg
  | num (n : JNum)
  | str (s : String)
deriving DecidableEq, Repr

def isSep (c : Char) : Bool := c = '.' || c = '+' || c = '-'

/-- JS `String.prototype.split` on the character class `[.+-]`: every
separator ends the current (possibly empty) segment; the empty string
yields `[""]`. -/
def splitSegsAux (cur : List Char) : List Char → List (List Char)
  | [] => [cur.reverse]
  | c :: t => if isSep c then cur.reverse :: splitSegsAux [] t else splitSegsAux (c :: cur) t

/-- `seg` from `semverCompare`: split into segments and coerce
numeric-looking segments with `+x`. -/
def seg (s : String) : List Seg :=
  (splitSegsAux [] s.data).map (fun cs =>
    let piece : String := ⟨cs⟩
    match jsToNumber piece with
    | some n => Seg.num n
    | none => Seg.str piece)

/-- One iteration of the `semverCompare` loop body, for two present
segments. -/
def segCmp : Seg → Seg → Int
  | .num a, .num b => if jnumLt a b then -1 else if jnumLt b a then 1 else 0
  | .str a, .str b => if jsStrLt a b then -1 else if jsStrLt b a then 1 else 0
  | .num _, .str _ => 1
  | .str _, .num _ => -1

/-- The `semverCompare` loop over segment lists: a missing segment (list
exhausted) sorts lowest; otherwise the per-position comparison decides, and
equal positions continue. -/
def semverCompareSegs : List Seg → List Seg → Int
  | [], [] => 0
  | [], _ :: _ => -1
  | _ :: _, [] => 1
  | x :: xs, y :: ys =>
    let c := segCmp x y
    if c = 0 then semverCompareSegs xs ys else c

/-- `semverCompare` from `src/utils.js`. -/
def semverCompare (a b : String) : Int :=
  semverCompareSegs (seg a) (seg b)

/-! ## Date parsing (`parseDateString`, `src/utils.js`)

```js
export function parseDateString(s) {
  if (typeof s !== 'string' || s.trim() === '') return null;
  s = s.trim();
  // Attempt 1: YYYYMMDDHHmmss via Date.UTC
  // Attempt 2: Date.parse(s)
  // Attempt 3: new Date(s)  (same platform parser as Date.parse)
  ...
}
```

Timestamps are epoch milliseconds (`Int`).  `Date.UTC` is modelled with
full month/day/hour rollover and the 0–99 → 1900–1999 year mapping, per
ECMA-262 `MakeDay`/`MakeTime`.
-/

/-- Days from the epoch 1970-01-01 to the civil date `y-m-d` (`m` in 1..12,
`d` may be out of range: excess days simply shift the result, matching
`MakeDay`).  Standard civil-from-days arithmetic. -/
def daysFromCivil (y m d : Int) : Int :=
  let y2 := if m ≤ 2 then y - 1 else y
  let era := y2.fdiv 400
  let yoe := y2 - era * 400
  let mp := (m + 9).emod 12
  let doy := (153 * mp + 2).fdiv 5 + d - 1
  let doe := yoe * 365 + yoe.fdiv 4 - yoe.fdiv 100 + doy
  era * 146097 + doe - 719468

/-- `Date.UTC(y, mo, d, h, mi, s)` as epoch milliseconds: months are
0-based and roll over into years, days/hours/minutes/seconds roll freely;
years 0–99 mean 1900–1999. -/
def jsDateUTC (y mo d h mi s : Int) : Int :=
  let y1 := if 0 ≤ y ∧ y ≤ 99 then y + 1900 else y
  let M := y1 * 12 + mo
  let yr := M.fdiv 12
  let mr := M.emod 12
  (daysFromCivil yr (mr + 1) 1 + (d - 1)) * 86400000
    + h * 3600000 + mi * 60000 + s * 1000

/-- A JS time value is finite (the `Date` is valid) iff its magnitude is at
most 8.64e15 ms. -/
def jsTimeValid (t : Int) : Bool := t.natAbs ≤ 8640000000000000

def daysInMonth (y m : Nat) : Nat :=
  if m = 2 then (if y % 4 = 0 && (y % 100 ≠ 0 || y % 400 = 0) then 29 else 28)
  else if m = 4 || m = 6 || m = 9 || m = 11 then 30
  else 31

/-- The ECMAScript string date parser (`Date.parse` / `new Date(string)`),
modelled on the standards-mandated date-only form `YYYY-MM-DD` of the Date
Time String Format, interpreted as UTC midnight; out-of-range components
are rejected.  Engine-specific extra formats are not modelled and yield
`none` (an unrecognizable string / Invalid Date). -/
def jsDateParse (s : String) : Option Int :=
  match s.data with
  | [y1, y2, y3, y4, s1, m1, m2, s2, d1, d2] =>
    if s1 = '-' && s2 = '-' && [y1, y2, y3, y4, m1, m2, d1, d2].all Char.isDigit then
      let y := natOfDigits [y1, y2, y3, y4]
      let m := natOfDigits [m1, m2]
      let d := natOfDigits [d1, d2]
      if 1 ≤ m && m ≤ 12 && 1 ≤ d && d ≤ daysInMonth y m then
        some (86400000 * daysFromCivil y m d)
      else none
    else none
  | _ => none

/-- Attempt 1 of `parseDateString`: the compact `YYYYMMDDHHmmss` form,
matched by regex and fed to `Date.UTC`; an invalid (non-finite) result
falls through. -/
def compact14 (s : String) : Option Int :=
  let cs := s.data
  if cs.length = 14 && cs.all Char.isDigit then
    let t := jsDateUTC (natOfDigits (cs.take 4))
      ((natOfDigits ((cs.drop 4).take 2) : Int) - 1)
      (natOfDigits ((cs.drop 6).take 2))
      (natOfDigits ((cs.drop 8).take 2))
      (natOfDigits ((cs.drop 10).take 2))
      (natOfDigits ((cs.drop 12).take 2))
    if jsTimeValid t then some t else none
  else none

/-- `parseDateString` from `src/utils.js`, for string input.  Attempts 2
and 3 of the source both invoke the platform string parser (`Date.parse`
and `new Date(s)` share it), so they collapse to one `jsDateParse` call. -/
def parseDateString (s : String) : Option Int :=
  if jsTrim s = "" then none
  else
    let t := jsTrim s
    match compact14 t with
    | some v => some v
    | none => jsDateParse t

/-- A JS value, for the `typeof s !== 'string'` guard of
`parseDateString`. -/
inductive JSVal
  | vNull
  | vUndef
  | vBool (b : Bool)
  | vNum (n : Int)
  | vStr (s : String)
deriving DecidableEq, Repr

def JSVal.isStr : JSVal → Bool
  | .vStr _ => true
  | _ => false

/-- `parseDateString` on an arbitrary JS value: non-strings fail the
`typeof` guard and return `null`. -/
def parseDateValue : JSVal → Option Int
  | .vStr s => parseDateString s
  | _ => none

/-! ## The canonical app/version records (`src/app.js`)

Normalized apps (the output of the schema normalizer) carry the scalar
fields `bundle`, `name`, `icon`, `dev`, `desc`, `source`, and a `versions`
array.  Flattened search records additionally carry the version-level
fields (`date`, `version`, `url`, `notes`) spread over the app-level ones,
plus the `_isVersion` tag.  One record type serves both shapes, with `""`
for an absent string field.  `ident` tags heap identity (see the header
comment). -/

structure VersionRec where
  version : String := ""
  url : String := ""
  date : String := ""
  notes : String := ""
deriving DecidableEq, Repr

structure App where
  ident : Option Nat := none
  bundle : String := ""
  name : String := ""
  icon : String := ""
  dev : String := ""
  desc : String := ""
  source : String := ""
  date : String := ""
  version : String := ""
  url : String := ""
  notes : String := ""
  isVersion : Bool := false
  versions : List VersionRec := []
deriving DecidableEq, Repr

/-! ## The version-record comparator inside `mergeByBundle` (`src/app.js`)

```js
v.versions.sort((x, y) => {
  const dx = x.date ? new Date(x.date) : null;
  const dy = y.date ? new Date(y.date) : null;
  if (dx && dy) return dy - dx;
  if (dx) return -1;
  if (dy) return 1;
  return semverCompare(y.version, x.version);
});
```

`new Date(str)` always yields a (truthy) `Date` object, even an Invalid
Date; `dy - dx` is `NaN` when either is invalid, and `Array.prototype.sort`
coerces a NaN comparator result to `+0`. -/
def recCmp (x y : VersionRec) : Int :=
  if x.date ≠ "" then
    if y.date ≠ "" then
      match jsDateParse y.date, jsDateParse x.date with
      | some ty, some tx => ty - tx
      | _, _ => 0
    else -1
  else
    if y.date ≠ "" then 1
    else semverCompare y.version x.version

/-- Strict form of `recCmp` used by the sort. -/
def recLt (x y : VersionRec) : Bool := recCmp x y < 0

/-! ## `mergeByBundle` (`src/app.js`, lines 52–97) -/

/-- The dedup key `` `${v.version}|${v.url}` ``. -/
def vkey (v : VersionRec) : String := v.version ++ "|" ++ v.url

/-- The version-merging loop of `mergeByBundle`: push each incoming record
whose key is not already present.  The JS `seen` set is, at every step,
exactly the key set of the accumulated array (it is initialized from it and
extended in lock-step with each push), so membership is tested on the
accumulator's keys. -/
def dedupPush (acc : List VersionRec) (incoming : List VersionRec) : List VersionRec :=
  incoming.foldl (fun cur v =>
    if (cur.map vkey).contains (vkey v) then cur else cur ++ [v]) acc

/-- Merging a same-bundle app into the accumulated record: scalar fields
first-truthy-wins (`acc.f = acc.f || a.f`), versions deduplicated. -/
def mergeInto (acc a : App) : App :=
  { acc with
    name := if acc.name ≠ "" then acc.name else a.name
    icon := if acc.icon ≠ "" then acc.icon else a.icon
    dev := if acc.dev ≠ "" then acc.dev else a.dev
    desc := if acc.desc ≠ "" then acc.desc else a.desc
    versions := dedupPush acc.versions a.versions }

/-- A key of the JS `Map`: a trimmed bundle string, or a fresh `Symbol` for
an app with no bundle identifier. -/
inductive MKey
  | str (s : String)
  | sym (n : Nat)
deriving DecidableEq, Repr

structure MState where
  entries : List (MKey × App)
  nextSym : Nat
deriving Repr

def findEntry (es : List (MKey × App)) (k : MKey) : Option App :=
  (es.find? (fun e => e.1 = k)).map (·.2)

/-- `map.set` on an existing key keeps the entry's position. -/
def updateEntry (es : List (MKey × App)) (k : MKey) (v : App) : List (MKey × App) :=
  es.map (fun e => if e.1 = k then (e.1, v) else e)

/-- One iteration of the accumulation loop of `mergeByBundle`.  An app with
an empty trimmed bundle is stored under a fresh Symbol key *by reference*
(`map.set(key, a)`, same heap object, `ident` kept); the first app of a
bundled group is stored as a spread copy with a copied versions array
(fresh object, `ident := none`). -/
def mergeStep (st : MState) (a : App) : MState :=
  let b := jsTrim a.bundle
  if b = "" then
    { entries := st.entries ++ [(.sym st.nextSym, a)], nextSym := st.nextSym + 1 }
  else
    match findEntry st.entries (.str b) with
    | none =>
      { st with entries := st.entries ++ [(.str b, { a with ident := none })] }
    | some acc =>
      { st with entries := updateEntry st.entries (.str b) (mergeInto acc a) }

def mergeState (apps : List App) : MState :=
  apps.foldl mergeStep ⟨[], 0⟩

/-- `mergeByBundle`: accumulate, then sort every stored record's versions
in place, then return the map's values in insertion order. -/
def mergeByBundle (apps : List App) : List App :=
  (mergeState apps).entries.map
    (fun e => { e.2 with versions := jsSort recLt e.2.versions })

/-- The state of the caller's input records after `mergeByBundle` returns:
a record whose heap identity (`ident`) survives into an output value was
mutated in place to that value (its versions array was sorted through the
shared reference); all other input records are untouched. -/
def inputAfterMerge (apps : List App) : List App :=
  let outs := mergeByBundle apps
  apps.map (fun a =>
    match outs.find? (fun o => o.ident.isSome && o.ident = a.ident) with
    | some o => o
    | none => a)

/-! ## `sortApps` and `filterAndPrepare` (`src/app.js`) -/

/-- `app.versions?.[0]?.date` fed to `parseDateString`; an empty versions
array reads `undefined`, which the parser rejects. -/
def getLatestDate (a : App) : Option Int :=
  match a.versions with
  | [] => none
  | v :: _ => parseDateString v.date

/-- `a.name.localeCompare(b.name)` modelled as code-unit comparison (the
locale-sensitive collation only refines ties between distinct names and is
never relevant to the claims). -/
def localeCmp (a b : String) : Int :=
  if jsStrLt a b then -1 else if jsStrLt b a then 1 else 0

def byNameAsc (a b : App) : Int := localeCmp a.name b.name

def byNameDesc (a b : App) : Int := localeCmp b.name a.name

def byVerDesc (a b : App) : Int :=
  match getLatestDate a, getLatestDate b with
  | some ta, some tb => tb - ta
  | some _, none => -1
  | none, some _ => 1
  | none, none => localeCmp a.name b.name

def byVerAsc (a b : App) : Int :=
  match getLatestDate a, getLatestDate b with
  | some ta, some tb => ta - tb
  | some _, none => 1
  | none, some _ => -1
  | none, none => localeCmp a.name b.name

/-- `sortApps(apps, mode)` from `src/app.js`. -/
def sortApps (apps : List App) (mode : String) : List App :=
  if mode = "name-desc" then jsSort (fun a b => byNameDesc a b < 0) apps
  else if mode = "version-desc" then jsSort (fun a b => byVerDesc a b < 0) apps
  else if mode = "version-asc" then jsSort (fun a b => byVerAsc a b < 0) apps
  else jsSort (fun a b => byNameAsc a b < 0) apps

/-- The flattening step of `filterAndPrepare` (and `addApps`): one record
per (app, version) pair via `{ ...app, ...v, _isVersion: true }`, or the
app alone when it has no versions. -/
def flattenApps (apps : List App) : List App :=
  apps.flatMap (fun app =>
    match app.versions with
    | [] => [{ app with isVersion := true }]
    | vs => vs.map (fun v =>
        { app with
          version := v.version, url := v.url, date := v.date,
          notes := v.notes, isVersion := true }))

/-! ## `searchApps` (`src/search.js`)

The raw fuzzy matcher is the external Fuse.js library, not repository
code; it is a parameter `fuse` returning scored raw results over the
candidate list.  Per its configuration in `search.js`
(`includeScore: true, threshold: 0.26`), a returned score lies in
[0, 0.26]; that fact enters the theorems as a hypothesis rather than being
baked into the embedding. -/

/-- The relevance refinement applied to one raw result `r`:
`rel = 1 - (score ?? 1)` plus the first matching bonus of the
`if/else-if` chain (each bonus also requires a truthy name). -/
def relOf (q : String) (r : App × Option ℚ) : ℚ :=
  let rel : ℚ := 1 - (r.2.getD 1)
  let ql := lowerStr q
  let nl := lowerStr r.1.name
  if r.1.name ≠ "" && nl = ql then rel + 7/10
  else if r.1.name ≠ "" && strStarts nl ql then rel + 4/10
  else if r.1.name ≠ "" && strIncludes nl ql then rel + 18/100
  else rel

/-- `searchApps(q, appsToSearch, limit)` from `src/search.js`:
empty/whitespace query returns the first `limit` candidates; otherwise the
raw fuzzy results (requested with limit `limit * 2`) are scored, sorted by
relevance descending (comparator `b.rel - a.rel`), truncated to `limit`,
and unwrapped. -/
def searchApps (fuse : String → List App → Nat → List (App × Option ℚ))
    (q : String) (targets : List App) (limit : Nat) : List App :=
  let qt := jsTrim q
  if qt = "" then targets.take limit
  else
    let raw := fuse qt targets (limit * 2)
    let scored := raw.map (fun r => (r.1, relOf qt r))
    let sorted := jsSort (fun a b => decide ((b.2 : ℚ) - a.2 < 0)) scored
    (sorted.take limit).map (·.1)

/-- The pure core of `filterAndPrepare` (`src/app.js`, lines 173–208):
search-or-passthrough, then the version-mode date filter on the item's own
`date` field, then `sortApps`. -/
def filterAndPrepare (fuse : String → List App → Nat → List (App × Option ℚ))
    (allMerged : List App) (q sortMode : String) : List App :=
  let qt := jsTrim q
  let apps :=
    if qt ≠ "" then searchApps fuse qt (flattenApps allMerged) 50
    else allMerged
  let apps :=
    if sortMode = "version-desc" || sortMode = "version-asc" then
      apps.filter (fun a => (parseDateString a.date).isSome)
    else apps
  sortApps apps sortMode

/-! ## The strict normalizer constructors (`src/alt-source-kit.js`)

A small JSON-value universe with JS truthiness and property access, and the
`ASRepository` / `App` / `Version` / `News` / `Permission` /
`AppPermissions` constructor chain, each of which throws exactly when its
argument fails `!data || typeof data !== 'object'`, and whose collection
fields apply `.map` to `data.f || []` (a TypeError when that value is
truthy but not an array). -/

inductive JVal
  | jNull
  | jUndef
  | jBool (b : Bool)
  | jNum (q : ℚ)
  | jStr (s : String)
  | jArr (elems : List JVal)
  | jObj (fields : List (String × JVal))

/-- Property access `d.k`: `undefined` on a missing key or a non-object
(the receiver shapes that occur here). -/
def jGet (d : JVal) (k : String) : JVal :=
  match d with
  | .jObj fs =>
    match fs.find? (fun p => p.1 = k) with
    | some p => p.2
    | none => .jUndef
  | _ => .jUndef

def jTruthy : JVal → Bool
  | .jNull => false
  | .jUndef => false
  | .jBool b => b
  | .jNum q => decide (q ≠ 0)
  | .jStr s => decide (s ≠ "")
  | .jArr _ => true
  | .jObj _ => true

/-- `data.k || dflt`. -/
def jOr (d : JVal) (k : String) (dflt : JVal) : JVal :=
  let v := jGet d k
  if jTruthy v then v else dflt

/-- The constructor guard: `!data || typeof data !== 'object'` passes
exactly arrays and objects (`typeof null` is `'object'` but `!null` throws
first). -/
def jIsObjectish : JVal → Bool
  | .jArr _ => true
  | .jObj _ => true
  | _ => false

/-- `v.map(f)` where `f` may throw: a TypeError unless `v` is an array;
otherwise `f` left-to-right, first exception propagates. -/
def jMapArr {α : Type} (f : JVal → Except String α) : JVal → Except String (List α)
  | .jArr l => exMapList f l
  | _ => .error "TypeError: map is not a function"
where
  exMapList (f : JVal → Except String α) : List JVal → Except String (List α)
    | [] => .ok []
    | x :: t =>
      match f x, exMapList f t with
      | .ok y, .ok ys => .ok (y :: ys)
      | .error e, _ => .error e
      | .ok _, .error e => .error e

structure ASPermission where
  type : JVal
  usageDescription : JVal

structure ASAppPermissions where
  entitlements : JVal
  privacy : JVal

structure ASVersion where
  version : JVal
  buildVersion : JVal
  date : JVal
  localizedDescription : JVal
  downloadURL : JVal
  size : JVal
  minOSVersion : JVal

structure ASApp where
  bundleIdentifier : JVal
  name : JVal
  subtitle : JVal
  description : JVal
  developerName : JVal
  versions : List ASVersion
  version : JVal
  versionDate : JVal
  versionDescription : JVal
  downloadURL : JVal
  localizedDescription : JVal
  iconURL : JVal
  tintColor : JVal
  size : JVal
  category : JVal
  beta : JVal
  permissions : List ASPermission
  appPermissions : Option ASAppPermissions
  screenshots : JVal
  screenshotURLs : JVal

structure ASNews where
  identifier : JVal
  title : JVal
  caption : JVal
  tintColor : JVal
  imageURL : JVal
  url : JVal
  appID : JVal
  date : JVal
  notify : JVal

structure ASRepo where
  identifier : JVal
  name : JVal
  subtitle : JVal
  description : JVal
  website : JVal
  iconURL : JVal
  headerURL : JVal
  tintColor : JVal
  patreonURL : JVal
  userInfo : JVal
  apps : List ASApp
  featuredApps : JVal
  news : List ASNews

def jEmptyStr : JVal := .jStr ""

def mkASPermission (d : JVal) : Except String ASPermission :=
  if !(jIsObjectish d) then .error "Invalid permission data"
  else .ok
    { type := jOr d "type" jEmptyStr
      usageDescription := jOr d "usageDescription" jEmptyStr }

def mkASAppPermissions (d : JVal) : Except String ASAppPermissions :=
  if !(jIsObjectish d) then .error "Invalid app permissions data"
  else .ok
    { entitlements := jOr d "entitlements" (.jObj [])
      privacy := jOr d "privacy" (.jObj []) }

def mkASVersion (d : JVal) : Except String ASVersion :=
  if !(jIsObjectish d) then .error "Invalid version data"
  else .ok
    { version := jOr d "version" jEmptyStr
      buildVersion := jOr d "buildVersion" jEmptyStr
      date := jOr d "date" jEmptyStr
      localizedDescription := jOr d "localizedDescription" jEmptyStr
      downloadURL := jOr d "downloadURL" jEmptyStr
      size := jOr d "size" (.jNum 0)
      minOSVersion := jOr d "minOSVersion" jEmptyStr }

def mkASApp (d : JVal) : Except String ASApp :=
  if !(jIsObjectish d) then .error "Invalid app data"
  else
    match jMapArr mkASVersion (jOr d "versions" (.jArr [])) with
    | .error e => .error e
    | .ok versions =>
      match jMapArr mkASPermission (jOr d "permissions" (.jArr [])) with
      | .error e => .error e
      | .ok permissions =>
        match
          (if jTruthy (jGet d "appPermissions") then
            (mkASAppPermissions (jGet d "appPermissions")).map some
          else .ok none) with
        | .error e => .error e
        | .ok appPermissions => .ok
          { bundleIdentifier := jOr d "bundleIdentifier" jEmptyStr
            name := jOr d "name" jEmptyStr
            subtitle := jOr d "subtitle" jEmptyStr
            description := jOr d "description" jEmptyStr
            developerName := jOr d "developerName" jEmptyStr
            versions := versions
            version := jOr d "version" jEmptyStr
            versionDate := jOr d "versionDate" jEmptyStr
            versionDescription := jOr d "versionDescription" jEmptyStr
            downloadURL := jOr d "downloadURL" jEmptyStr
            localizedDescription := jOr d "localizedDescription" jEmptyStr
            iconURL := jOr d "iconURL" jEmptyStr
            tintColor := jOr d "tintColor" jEmptyStr
            size := jOr d "size" (.jNum 0)
            category := jOr d "category" jEmptyStr
            beta := jOr d "beta" (.jBool false)
            permissions := permissions
            appPermissions := appPermissions
            screenshots := jOr d "screenshots" (.jArr [])
            screenshotURLs := jOr d "screenshotURLs" (.jArr []) }

def mkASNews (d : JVal) : Except String ASNews :=
  if !(jIsObjectish d) then .error "Invalid news data"
  else .ok
    { identifier := jOr d "identifier" jEmptyStr
      title := jOr d "title" jEmptyStr
      caption := jOr d "caption" jEmptyStr
      tintColor := jOr d "tintColor" jEmptyStr
      imageURL := jOr d "imageURL" jEmptyStr
      url := jOr d "url" jEmptyStr
      appID := jOr d "appID" jEmptyStr
      date := jOr d "date" jEmptyStr
      notify := jOr d "notify" (.jBool false) }

/-- `new ASRepository(data)` from `src/alt-source-kit.js`. -/
def asRepository (d : JVal) : Except String ASRepo :=
  if !(jIsObjectish d) then .error "Invalid repository data"
  else
    match jMapArr mkASApp (jOr d "apps" (.jArr [])) with
    | .error e => .error e
    | .ok apps =>
      match jMapArr mkASNews (jOr d "news" (.jArr [])) with
      | .error e => .error e
      | .ok news => .ok
        { identifier := jOr d "identifier" jEmptyStr
          name := jOr d "name" jEmptyStr
          subtitle := jOr d "subtitle" jEmptyStr
          description := jOr d "description" jEmptyStr
          website := jOr d "website" jEmptyStr
          iconURL := jOr d "iconURL" jEmptyStr
          headerURL := jOr d "headerURL" jEmptyStr
          tintColor := jOr d "tintColor" jEmptyStr
          patreonURL := jOr d "patreonURL" jEmptyStr
          userInfo := jOr d "userInfo" (.jObj [])
          apps := apps
          featuredApps := jOr d "featuredApps" (.jArr [])
          news := news }

/-! ## Well-formedness predicates for the strict normalizer (C9) -/

def exIsOk {ε α : Type} : Except ε α → Bool
  | .ok _ => true
  | .error _ => false

/-- The nested-collection fields on which a constructor can still throw
for an object-shaped document: `apps`/`news` (and inside every app,
`versions`/`permissions`) must, when truthy, be arrays of object-shaped
values, and a truthy `appPermissions` must be object-shaped. -/
def wfCollection (v : JVal) : Bool :=
  match v with
  | .jArr l => l.all jIsObjectish
  | _ => false

def wfASApp (a : JVal) : Bool :=
  jIsObjectish a
  && wfCollection (jOr a "versions" (.jArr []))
  && wfCollection (jOr a "permissions" (.jArr []))
  && (!(jTruthy (jGet a "appPermissions")) || jIsObjectish (jGet a "appPermissions"))

def wfDoc (d : JVal) : Bool :=
  (match jOr d "apps" (.jArr []) with
   | .jArr l => l.all wfASApp
   | _ => false)
  && wfCollection (jOr d "news" (.jArr []))

/-- The normative bonus tiers of spec §4.5, written as the spec states
them: +0.7 for exact case-insensitive name equality, else +0.4 for a
case-insensitive name-prefix match, else +0.18 for a case-insensitive
substring match, else nothing. -/
def relBonusSpec (q name : String) : ℚ :=
  if lowerStr name = lowerStr q then 7/10
  else if strStarts (lowerStr name) (lowerStr q) then 4/10
  else if strIncludes (lowerStr name) (lowerStr q) then 18/100
  else 0

def exApp : App := { name := "exactname" }

def pfApp : App := { name := "exactnamefoo" }

def cFuse : String → List App → Nat → List (App × Option ℚ) :=
  fun _ _ _ => [(exApp, some 0), (pfApp, some 0)]

/-! ## Spec-side descriptions of the merge (C3, C4, C10) -/

/-- First non-empty value of a list of strings (the spec's field-merge
policy), `""` when none. -/
def firstNonEmpty (l : List String) : String :=
  (l.find? (fun s => s ≠ "")).getD ""

/-- The same-bundle group of `b` in source-encounter order. -/
def groupApps (apps : List App) (b : String) : List App :=
  apps.filter (fun a => jsTrim a.bundle = b)

/-- All version records contributed by the group of `b`, in encounter
order. -/
def groupVersions (apps : List App) (b : String) : List VersionRec :=
  (groupApps apps b).flatMap (·.versions)

/-- The version list `mergeByBundle` accumulates for a group: the first
member's list verbatim, then every later record whose dedup key is new. -/
def mergedVersionsSpec : List App → List VersionRec
  | [] => []
  | g :: rest => dedupPush g.versions (rest.flatMap (·.versions))

/-- Keep the first record of each dedup key, skipping keys in `seen`. -/
def keepFirsts (seen : List String) : List VersionRec → List VersionRec
  | [] => []
  | v :: t =>
    if seen.contains (vkey v) then keepFirsts seen t
    else v :: keepFirsts (vkey v :: seen) t

def strKeyOf : MKey × App → Option String :=
  fun e => match e.1 with | .str s => some s | .sym _ => none

/-! ## Concrete inputs for the merge claims (C3, C10) -/

def c3p : VersionRec := { version := "1.0", url := "u" }

def c3a1 : App := { bundle := "b", versions := [c3p, c3p] }

def c3a2 : App := { bundle := "b", versions := [c3p] }

def nbApp : App :=
  { ident := some 0, bundle := "",
    versions := [{ version := "1.0" }, { version := "2.0" }] }

/-! ## Theorems -/

theorem insertStable_perm {α : Type} (lt : α → α → Bool) (a : α) (l : List α) :
    (insertStable lt a l).Perm (a :: l) := by
  induction l with
  | nil => simp [insertStable]
  | cons b t ih =>
    simp only [insertStable]
    by_cases h : lt a b
    · simp [h]
    · simp only [h, if_false, Bool.false_eq_true, not_false_iff, ite_false]
      exact ((ih.cons b).trans (List.Perm.swap a b t))

theorem jsSort_aux_perm {α : Type} (lt : α → α → Bool) (l acc : List α) :
    (l.foldl (fun acc a => insertStable lt a acc) acc).Perm (acc ++ l) := by
  induction l generalizing acc with
  | nil => simp
  | cons a t ih =>
    simp only [List.foldl_cons]
    refine (ih (insertStable lt a acc)).trans ?_
    have h1 : (insertStable lt a acc ++ t).Perm ((a :: acc) ++ t) :=
      (insertStable_perm lt a acc).append_right t
    refine h1.trans ?_
    simp only [List.cons_append]
    exact (List.perm_middle).symm

theorem jsSort_perm {α : Type} (lt : α → α → Bool) (l : List α) :
    (jsSort lt l).Perm l := by
  simpa [jsSort] using jsSort_aux_perm lt l []

theorem mem_jsSort {α : Type} {lt : α → α → Bool} {l : List α} {x : α} :
    x ∈ jsSort lt l ↔ x ∈ l :=
  (jsSort_perm lt l).mem_iff

/-- Sortedness of the stable insertion sort, for a transitive and
asymmetric strict relation: in the output, a later element is never
strictly below an earlier one. -/
theorem insertStable_pairwise {α : Type} {lt : α → α → Bool}
    (htrans : ∀ x y z, lt x y = true → lt y z = true → lt x z = true)
    (hasym : ∀ x y, lt x y = true → lt y x = false)
    {a : α} {l : List α}
    (hl : l.Pairwise (fun x y => lt y x = false)) :
    (insertStable lt a l).Pairwise (fun x y => lt y x = false) := by
  induction l with
  | nil => simp [insertStable]
  | cons b t ih =>
    rcases List.pairwise_cons.mp hl with ⟨hb, ht⟩
    simp only [insertStable]
    by_cases h : lt a b
    · simp only [h, if_true]
      refine List.pairwise_cons.mpr ⟨?_, hl⟩
      intro c hc
      rcases List.mem_cons.mp hc with hc2 | hc2
      · subst hc2
        exact hasym a c h
      · by_cases hca : lt c a
        · have hcb : lt c b = true := htrans _ _ _ hca h
          have hfb := hb c hc2
          simp [hfb] at hcb
        · simpa using hca
    · simp only [h, if_false, Bool.false_eq_true, not_false_iff, ite_false]
      refine List.pairwise_cons.mpr ⟨?_, ih ht⟩
      intro c hc
      have hcc : c ∈ a :: t := (insertStable_perm lt a t).mem_iff.mp hc
      rcases List.mem_cons.mp hcc with hc2 | hc2
      · subst hc2; simpa using h
      · exact hb c hc2

theorem jsSort_pairwise {α : Type} {lt : α → α → Bool}
    (htrans : ∀ x y z, lt x y = true → lt y z = true → lt x z = true)
    (hasym : ∀ x y, lt x y = true → lt y x = false)
    (l : List α) :
    (jsSort lt l).Pairwise (fun x y => lt y x = false) := by
  suffices h : ∀ acc : List α, acc.Pairwise (fun x y => lt y x = false) →
      (l.foldl (fun acc a => insertStable lt a acc) acc).Pairwise
        (fun x y => lt y x = false) by
    exact h [] (by simp)
  induction l with
  | nil => intro acc hacc; simpa using hacc
  | cons a t ih =>
    intro acc hacc
    exact ih (insertStable lt a acc) (insertStable_pairwise htrans hasym hacc)

theorem strLtList_irrefl (l : List Char) : strLtList l l = false := by
  induction l with
  | nil => rfl
  | cons a t ih => simp [strLtList, ih]

theorem strLtList_asymm (a b : List Char) :
    strLtList a b = true → strLtList b a = false := by
  induction a generalizing b with
  | nil =>
    intro h
    cases b with
    | nil => simp [strLtList] at h
    | cons x t => simp [strLtList]
  | cons x xs ih =>
    intro h
    cases b with
    | nil => simp [strLtList] at h
    | cons y ys =>
      simp only [strLtList] at h ⊢
      by_cases hxy : x.toNat < y.toNat
      · have hnyx : ¬ y.toNat < x.toNat := by omega
        simp [hxy, hnyx]
      · by_cases hyx : y.toNat < x.toNat
        · simp [hxy, hyx] at h
        · simp only [if_neg hxy, if_neg hyx] at h
          simp only [if_neg hyx, if_neg hxy]
          exact ih ys h

theorem jnumLt_irrefl (a : JNum) : jnumLt a a = false := by
  cases a <;> simp [jnumLt]

theorem jnumLt_asymm (a b : JNum) : jnumLt a b = true → jnumLt b a = false := by
  cases a with
  | fin qa =>
    cases b with
    | fin qb =>
      simp only [jnumLt, decide_eq_true_eq]
      exact fun h => by simpa using lt_asymm h
    | inf => simp [jnumLt]
  | inf => simp [jnumLt]

theorem segCmp_self (x : Seg) : segCmp x x = 0 := by
  cases x with
  | num n => simp [segCmp, jnumLt_irrefl]
  | str s => simp [segCmp, jsStrLt, strLtList_irrefl]

theorem segCmp_antisymm (x y : Seg) : segCmp x y = -segCmp y x := by
  cases x with
  | num a =>
    cases y with
    | num b =>
      by_cases h1 : jnumLt a b
      · simp [segCmp, h1, jnumLt_asymm a b h1]
      · by_cases h2 : jnumLt b a
        · simp [segCmp, h1, h2]
        · simp [segCmp, h1, h2]
    | str s => simp [segCmp]
  | str s =>
    cases y with
    | num b => simp [segCmp]
    | str t =>
      by_cases h1 : jsStrLt s t
      · have := strLtList_asymm s.data t.data h1
        simp [segCmp, h1, jsStrLt] at *
        simp [this, h1]
      · by_cases h2 : jsStrLt t s
        · simp [segCmp, h1, h2]
        · simp [segCmp, h1, h2]

theorem semverCompareSegs_self (l : List Seg) : semverCompareSegs l l = 0 := by
  induction l with
  | nil => rfl
  | cons x t ih => simp [semverCompareSegs, segCmp_self, ih]

theorem semverCompareSegs_antisymm (a b : List Seg) :
    semverCompareSegs a b = -semverCompareSegs b a := by
  induction a generalizing b with
  | nil => cases b <;> simp [semverCompareSegs]
  | cons x xs ih =>
    cases b with
    | nil => simp [semverCompareSegs]
    | cons y ys =>
      simp only [semverCompareSegs]
      by_cases h : segCmp x y = 0
      · have h' : segCmp y x = 0 := by
          have := segCmp_antisymm x y
          omega
        simp [h, h', ih ys]
      · have h' : segCmp y x ≠ 0 := by
          have := segCmp_antisymm x y
          omega
        have := segCmp_antisymm x y
        simp [h, h']
        omega

/-! ## Supporting lemmas: segment comparison -/

theorem semverCompareSegs_append (p xs ys : List Seg) :
    semverCompareSegs (p ++ xs) (p ++ ys) = semverCompareSegs xs ys := by
  induction p with
  | nil => rfl
  | cons z t ih => simp [semverCompareSegs, segCmp_self, ih]

/-! ## Claim theorems: the version-string comparator -/

/-- C6: For all version strings `a` and `b`,
`compareVersions(a,b) == -compareVersions(b,a)`, and for every version
string `a`, `compareVersions(a,a) == 0`. -/
theorem c6_semverCompare_antisymm_refl :
    (∀ a b : String, semverCompare a b = -semverCompare b a)
    ∧ (∀ a : String, semverCompare a a = 0) :=
  ⟨fun a b => semverCompareSegs_antisymm (seg a) (seg b),
   fun a => semverCompareSegs_self (seg a)⟩

/-- C7: `semverCompare` splits on `.`, `+`, `-`, coerces numeric-looking
segments to numbers, and compares segment-by-segment at the first
difference: a missing segment sorts lowest, same-type segments use native
ordering, and a numeric segment is greater than a textual one; in
particular `compareVersions("1.2.0","1.10.0") < 0` and
`compareVersions("1.0","1.0.0") < 0`. -/
theorem c7_semverCompare_segmentwise :
    semverCompare "1.2.0" "1.10.0" = -1
    ∧ semverCompare "1.0" "1.0.0" = -1
    ∧ seg "1.2-3+a" =
        [Seg.num (.fin 1), Seg.num (.fin 2), Seg.num (.fin 3), Seg.str "a"]
    ∧ (∀ a b : String, semverCompare a b = semverCompareSegs (seg a) (seg b))
    ∧ (∀ p y ys, semverCompareSegs p (p ++ y :: ys) = -1)
    ∧ (∀ p y ys, semverCompareSegs (p ++ y :: ys) p = 1)
    ∧ (∀ p a xs s ys,
        semverCompareSegs (p ++ Seg.num a :: xs) (p ++ Seg.str s :: ys) = 1)
    ∧ (∀ p s xs a ys,
        semverCompareSegs (p ++ Seg.str s :: xs) (p ++ Seg.num a :: ys) = -1)
    ∧ (∀ p a xs b ys,
        semverCompareSegs (p ++ Seg.num a :: xs) (p ++ Seg.num b :: ys) =
          if jnumLt a b then -1 else if jnumLt b a then 1
          else semverCompareSegs xs ys)
    ∧ (∀ p s xs t ys,
        semverCompareSegs (p ++ Seg.str s :: xs) (p ++ Seg.str t :: ys) =
          if jsStrLt s t then -1 else if jsStrLt t s then 1
          else semverCompareSegs xs ys) := by
  refine ⟨by decide, by decide, by decide, fun a b => rfl, ?_, ?_, ?_, ?_, ?_, ?_⟩
  · intro p y ys
    have h := semverCompareSegs_append p [] (y :: ys)
    simpa using h
  · intro p y ys
    have h := semverCompareSegs_append p (y :: ys) []
    simpa using h
  · intro p a xs s ys
    rw [semverCompareSegs_append]
    simp [semverCompareSegs, segCmp]
  · intro p s xs a ys
    rw [semverCompareSegs_append]
    simp [semverCompareSegs, segCmp]
  · intro p a xs b ys
    rw [semverCompareSegs_append]
    by_cases h1 : jnumLt a b
    · have h2 : jnumLt b a = false := jnumLt_asymm a b h1
      simp [semverCompareSegs, segCmp, h1, h2]
    · by_cases h2 : jnumLt b a
      · simp [semverCompareSegs, segCmp, h1, h2]
      · simp [semverCompareSegs, segCmp, h1, h2]
  · intro p s xs t ys
    rw [semverCompareSegs_append]
    by_cases h1 : jsStrLt s t
    · have h2 : jsStrLt t s = false := strLtList_asymm s.data t.data h1
      simp [semverCompareSegs, segCmp, h1, h2]
    · by_cases h2 : jsStrLt t s
      · simp [semverCompareSegs, segCmp, h1, h2]
      · simp [semverCompareSegs, segCmp, h1, h2]

/-! ## Claim theorems: date parsing -/

/-- C8: `parseDateString` maps the compact numeric string
`"20230615143000"` to exactly 2023-06-15 14:30:00 UTC (epoch milliseconds
1686839400000, via the `YYYYMMDDHHmmss` branch interpreted as UTC), and
returns `null` for every non-string input and for every empty or
whitespace-only string. -/
theorem c8_parseDateString_contract :
    parseDateString "20230615143000" = some 1686839400000
    ∧ (∀ v : JSVal, v.isStr = false → parseDateValue v = none)
    ∧ (∀ s : String, jsTrim s = "" → parseDateString s = none) := by
  refine ⟨by decide, ?_, ?_⟩
  · intro v hv
    cases v with
    | vStr s => simp [JSVal.isStr] at hv
    | vNull => rfl
    | vUndef => rfl
    | vBool b => rfl
    | vNum n => rfl
  · intro s hs
    simp [parseDateString, hs]

theorem c8_witness :
    ((JSVal.vNull.isStr = false) ∧ parseDateValue JSVal.vNull = none)
    ∧ (jsTrim "   " = "" ∧ parseDateString "   " = none) :=
  ⟨⟨by decide, c8_parseDateString_contract.2.1 JSVal.vNull (by decide)⟩,
   ⟨by decide, c8_parseDateString_contract.2.2 "   " (by decide)⟩⟩

/-! ## Claim theorems: the version-record comparator (C2) -/

/-- C2 counterexample: a pair of version records where exactly one date is
parseable (`"2023-01-01"` vs the unparseable `"bad-date"`), yet the
comparator returns `0` — the record with the parseable date does *not*
sort first (that would need a negative result), nor does the comparator
fall back to the version-string comparison (which would return
`semverCompare("2.0","1.0") = 1`): both date strings are truthy, so both
`new Date` objects are truthy, and the `dy - dx` branch yields NaN,
which the sort coerces to 0. -/
theorem c2_counterexample :
    (parseDateString "2023-01-01").isSome = true
    ∧ parseDateString "bad-date" = none
    ∧ recCmp { version := "1.0", url := "u1", date := "2023-01-01" }
        { version := "2.0", url := "u2", date := "bad-date" } = 0
    ∧ semverCompare "2.0" "1.0" = 1 := by decide

/-- C2 amended: the comparator keys on *truthiness* of the raw date
string, not parseability.  When both date strings are non-empty and both
parse, it orders by parsed date descending (`ty - tx`); when both are
non-empty but at least one fails to parse, it returns 0 (the NaN
comparator result is coerced); when exactly one date string is non-empty,
that record sorts first regardless of version strings or parseability; and
only when both date strings are empty/absent does it fall back to the
descending version-string comparison. -/
theorem c2_amended_recCmp (x y : VersionRec) :
    (x.date ≠ "" → y.date ≠ "" → ∀ tx ty,
      jsDateParse x.date = some tx → jsDateParse y.date = some ty →
      recCmp x y = ty - tx)
    ∧ (x.date ≠ "" → y.date ≠ "" →
      (jsDateParse x.date = none ∨ jsDateParse y.date = none) →
      recCmp x y = 0)
    ∧ (x.date ≠ "" → y.date = "" → recCmp x y = -1)
    ∧ (x.date = "" → y.date ≠ "" → recCmp x y = 1)
    ∧ (x.date = "" → y.date = "" →
      recCmp x y = semverCompare y.version x.version) := by
  refine ⟨?_, ?_, ?_, ?_, ?_⟩
  · intro hx hy tx ty htx hty
    simp [recCmp, hx, hy, htx, hty]
  · intro hx hy h
    rcases h with h | h
    · cases hty : jsDateParse y.date <;> simp [recCmp, hx, hy, h, hty]
    · cases htx : jsDateParse x.date <;> simp [recCmp, hx, hy, h, htx]
  · intro hx hy
    simp [recCmp, hx, hy]
  · intro hx hy
    simp [recCmp, hx, hy]
  · intro hx hy
    simp [recCmp, hx, hy]

theorem c2_amended_recCmp_witness :
    (({ version := "1.0", url := "u1", date := "2023-01-01" } : VersionRec).date ≠ ""
      ∧ ({ version := "2.0", url := "u2", date := "" } : VersionRec).date = ""
      ∧ recCmp { version := "1.0", url := "u1", date := "2023-01-01" }
          { version := "2.0", url := "u2", date := "" } = -1) :=
  ⟨by decide, by decide,
   (c2_amended_recCmp { version := "1.0", url := "u1", date := "2023-01-01" }
     { version := "2.0", url := "u2", date := "" }).2.2.1 (by decide) (by decide)⟩

/-! ## Claim theorems: the controller's filter/sort step (C1) -/

theorem mem_sortApps {apps : List App} {mode : String} {x : App} :
    x ∈ sortApps apps mode ↔ x ∈ apps := by
  unfold sortApps
  split_ifs <;> exact mem_jsSort

/-- C1: with an active version-based sort mode, every item whose own
`date` field fails to parse is excluded from the prepared list (whatever
the query and the search engine return); preparing
`[dated, undated]` under `version-desc` keeps only the dated app, hence
places it first; and the `version-desc` comparator itself puts an app
whose leading version has a parseable date before one whose leading
version has none. -/
theorem c1_version_mode_prepared_list :
    (∀ fuse allMerged q mode,
      (mode = "version-desc" ∨ mode = "version-asc") →
      ∀ x ∈ filterAndPrepare fuse allMerged q mode,
        (parseDateString x.date).isSome = true)
    ∧ (∀ fuse (a b : App),
      (parseDateString a.date).isSome = true →
      parseDateString b.date = none →
      filterAndPrepare fuse [a, b] "" "version-desc" = [a])
    ∧ (∀ a b : App,
      (getLatestDate a).isSome = true → getLatestDate b = none →
      sortApps [b, a] "version-desc" = [a, b]) := by
  refine ⟨?_, ?_, ?_⟩
  · intro fuse allMerged q mode hmode x hx
    simp only [filterAndPrepare] at hx
    have hcond : (mode = "version-desc" || mode = "version-asc") = true := by
      rcases hmode with rfl | rfl <;> simp
    rw [if_pos hcond] at hx
    have hx2 := mem_sortApps.mp hx
    exact (List.mem_filter.mp hx2).2
  · intro fuse a b ha hb
    have h0 : jsTrim "" = "" := by decide
    simp only [filterAndPrepare, h0, ne_eq, not_true_eq_false, if_false, ite_false]
    rw [if_pos (by simp)]
    have hfilter : List.filter (fun a => (parseDateString a.date).isSome) [a, b] = [a] := by
      simp [List.filter, ha, hb]
    rw [hfilter]
    unfold sortApps
    rw [if_neg (by decide), if_pos rfl]
    rfl
  · intro a b ha hb
    obtain ⟨ta, hta⟩ := Option.isSome_iff_exists.mp ha
    unfold sortApps
    rw [if_neg (by decide), if_pos rfl]
    have hlt : (decide (byVerDesc a b < 0)) = true := by
      simp [byVerDesc, hta, hb]
    simp [jsSort, insertStable, hlt]

theorem c1_witness :
    ((parseDateString "2023-01-01").isSome = true
      ∧ parseDateString "" = none
      ∧ filterAndPrepare (fun _ _ _ => []) [{ date := "2023-01-01" }, { date := "" }]
          "" "version-desc" = [{ date := "2023-01-01" }]) :=
  ⟨by decide, by decide,
   c1_version_mode_prepared_list.2.1 (fun _ _ _ => [])
     { date := "2023-01-01" } { date := "" } (by decide) (by decide)⟩

theorem exMapList_ok {α : Type} (f : JVal → Except String α) (l : List JVal)
    (h : ∀ x ∈ l, exIsOk (f x) = true) :
    ∃ ys, jMapArr.exMapList f l = .ok ys := by
  induction l with
  | nil => exact ⟨[], rfl⟩
  | cons x t ih =>
    have hx : exIsOk (f x) = true := h x (List.mem_cons_self x t)
    obtain ⟨ys, hys⟩ := ih (fun z hz => h z (List.mem_cons_of_mem x hz))
    cases hfx : f x with
    | error e => rw [hfx] at hx; simp [exIsOk] at hx
    | ok y =>
      exact ⟨y :: ys, by simp [jMapArr.exMapList, hfx, hys]⟩

theorem mkASVersion_ok (v : JVal) (h : jIsObjectish v = true) :
    exIsOk (mkASVersion v) = true := by
  simp [mkASVersion, h, exIsOk]

theorem mkASPermission_ok (v : JVal) (h : jIsObjectish v = true) :
    exIsOk (mkASPermission v) = true := by
  simp [mkASPermission, h, exIsOk]

theorem mkASNews_ok (v : JVal) (h : jIsObjectish v = true) :
    exIsOk (mkASNews v) = true := by
  simp [mkASNews, h, exIsOk]

theorem jMapArr_ok_of_wf {α : Type} (f : JVal → Except String α) (v : JVal)
    (hv : wfCollection v = true)
    (hf : ∀ x, jIsObjectish x = true → exIsOk (f x) = true) :
    ∃ ys, jMapArr f v = .ok ys := by
  cases v with
  | jArr l =>
    have hall : ∀ x ∈ l, exIsOk (f x) = true := by
      intro x hx
      exact hf x (by
        have := (List.all_eq_true.mp (by simpa [wfCollection] using hv)) x hx
        simpa using this)
    obtain ⟨ys, hys⟩ := exMapList_ok f l hall
    exact ⟨ys, by simp [jMapArr, hys]⟩
  | jNull => simp [wfCollection] at hv
  | jUndef => simp [wfCollection] at hv
  | jBool b => simp [wfCollection] at hv
  | jNum q => simp [wfCollection] at hv
  | jStr s => simp [wfCollection] at hv
  | jObj fs => simp [wfCollection] at hv

theorem mkASApp_ok (a : JVal) (h : wfASApp a = true) :
    exIsOk (mkASApp a) = true := by
  have h1 : jIsObjectish a = true := by
    simp [wfASApp] at h; exact h.1.1.1
  have h2 : wfCollection (jOr a "versions" (.jArr [])) = true := by
    simp [wfASApp] at h; exact h.1.1.2
  have h3 : wfCollection (jOr a "permissions" (.jArr [])) = true := by
    simp [wfASApp] at h; exact h.1.2
  have h4 : jTruthy (jGet a "appPermissions") = true →
      jIsObjectish (jGet a "appPermissions") = true := by
    simp [wfASApp] at h
    intro ht
    rcases h.2 with h5 | h5
    · rw [ht] at h5; simp at h5
    · exact h5
  obtain ⟨vs, hvs⟩ := jMapArr_ok_of_wf mkASVersion _ h2 mkASVersion_ok
  obtain ⟨ps, hps⟩ := jMapArr_ok_of_wf mkASPermission _ h3 mkASPermission_ok
  unfold mkASApp
  rw [h1]
  simp only [Bool.not_true, Bool.false_eq_true, if_false, ite_false, hvs, hps]
  by_cases ht : jTruthy (jGet a "appPermissions")
  · have hobj := h4 ht
    simp [ht, mkASAppPermissions, hobj, exIsOk, Except.map]
  · simp [ht, exIsOk]

/-- C9 counterexample: the document `{apps: [null]}` is object-shaped, yet
the strict constructor path throws (the nested `App` constructor rejects
`null`), refuting "throws exactly when the input is not an object" /
"never throws for an object-shaped input". -/
theorem c9_counterexample :
    jIsObjectish (JVal.jObj [("apps", JVal.jArr [JVal.jNull])]) = true
    ∧ exIsOk (asRepository (JVal.jObj [("apps", JVal.jArr [JVal.jNull])])) = false := by
  constructor
  · rfl
  · rfl

/-- C9 amended: the strict constructor path throws `"Invalid repository
data"` for every input that is not object-shaped (`null`, bare strings,
numbers, booleans, `undefined`); an object-shaped input can still throw,
but only through a malformed nested collection — when `apps` and `news`
(and each app's `versions`/`permissions`/`appPermissions`), where truthy,
are arrays of object-shaped values, construction succeeds, and a document
without an `apps` field yields an empty app list. -/
theorem c9_amended_asRepository (d : JVal) :
    (jIsObjectish d = false → asRepository d = .error "Invalid repository data")
    ∧ (jIsObjectish d = true → wfDoc d = true →
        exIsOk (asRepository d) = true
        ∧ (jTruthy (jGet d "apps") = false →
            ∀ r, asRepository d = .ok r → r.apps = [])) := by
  constructor
  · intro h
    unfold asRepository
    rw [h]
    rfl
  · intro hobj hwf
    have hApps : wfDoc d = true →
        ∀ x ∈ ([] : List JVal), True := by intro _ _ _; trivial
    have hwf1 : (match jOr d "apps" (.jArr []) with
        | .jArr l => l.all wfASApp
        | _ => false) = true := by
      simp [wfDoc] at hwf; exact hwf.1
    have hwf2 : wfCollection (jOr d "news" (.jArr [])) = true := by
      simp [wfDoc] at hwf; exact hwf.2
    obtain ⟨ns, hns⟩ := jMapArr_ok_of_wf mkASNews _ hwf2 mkASNews_ok
    have happs : ∃ as_, jMapArr mkASApp (jOr d "apps" (.jArr [])) = .ok as_ := by
      cases hv : jOr d "apps" (.jArr []) with
      | jArr l =>
        rw [hv] at hwf1
        have hall : ∀ x ∈ l, exIsOk (mkASApp x) = true := by
          intro x hx
          exact mkASApp_ok x ((List.all_eq_true.mp hwf1) x hx)
        obtain ⟨ys, hys⟩ := exMapList_ok mkASApp l hall
        exact ⟨ys, by simp [jMapArr, hys]⟩
      | jNull => rw [hv] at hwf1; simp at hwf1
      | jUndef => rw [hv] at hwf1; simp at hwf1
      | jBool b => rw [hv] at hwf1; simp at hwf1
      | jNum q => rw [hv] at hwf1; simp at hwf1
      | jStr s => rw [hv] at hwf1; simp at hwf1
      | jObj fs => rw [hv] at hwf1; simp at hwf1
    obtain ⟨as_, has⟩ := happs
    constructor
    · unfold asRepository
      rw [hobj]
      simp [has, hns, exIsOk]
    · intro hfalsy r hr
      have hor : jOr d "apps" (.jArr []) = .jArr [] := by
        simp [jOr, hfalsy]
      unfold asRepository at hr
      rw [hobj, hor] at hr
      rw [show jMapArr mkASApp (JVal.jArr []) = Except.ok [] from rfl] at hr
      rw [hns] at hr
      simp only [Bool.not_true, Bool.false_eq_true, if_false, ite_false,
        Except.ok.injEq] at hr
      rw [← hr]

/-! ## Claim theorems: search ranking (C5) -/

theorem lowerStr_eq_empty_iff (s : String) : lowerStr s = "" ↔ s = "" := by
  cases s with
  | mk data => simp [lowerStr, String.ext_iff]

theorem relOf_eq_spec (q : String) (r : App × Option ℚ) (hq : q ≠ "") :
    relOf q r = (1 - r.2.getD 1) + relBonusSpec q r.1.name := by
  have hql : lowerStr q ≠ "" := by
    intro h
    exact hq ((lowerStr_eq_empty_iff q).mp h)
  by_cases hname : r.1.name = ""
  · have hqldata : (lowerStr q).data ≠ [] := by
      intro h
      exact hql (String.ext h)
    have c1 : ¬ (lowerStr "" = lowerStr q) := by
      exact fun h => hql h.symm
    have c2 : strStarts (lowerStr "") (lowerStr q) = false := by
      cases hd : (lowerStr q).data with
      | nil => exact absurd hd hqldata
      | cons c cs => simp [strStarts, hd, List.isPrefixOf]
    have c3 : strIncludes (lowerStr "") (lowerStr q) = false := by
      cases hd : (lowerStr q).data with
      | nil => exact absurd hd hqldata
      | cons c cs => simp [strIncludes, hd, subListOf]
    simp [relOf, relBonusSpec, hname, c1, c2, c3]
  · by_cases h1 : lowerStr r.1.name = lowerStr q
    · simp [relOf, relBonusSpec, hname, h1]
    · by_cases h2 : strStarts (lowerStr r.1.name) (lowerStr q)
      · simp [relOf, relBonusSpec, hname, h1, h2]
      · by_cases h3 : strIncludes (lowerStr r.1.name) (lowerStr q)
        · simp [relOf, relBonusSpec, hname, h1, h2, h3]
        · simp [relOf, relBonusSpec, hname, h1, h2, h3]

theorem searchApps_length_le
    (fuse : String → List App → Nat → List (App × Option ℚ))
    (q : String) (targets : List App) (limit : Nat) :
    (searchApps fuse q targets limit).length ≤ limit := by
  simp only [searchApps]
  by_cases h : jsTrim q = ""
  · rw [if_pos h]
    exact List.length_take_le _ _
  · rw [if_neg h]
    simp only [List.length_map]
    exact List.length_take_le _ _

theorem searchApps_exact_above_mere_prefix
    (fuse : String → List App → Nat → List (App × Option ℚ))
    (q : String) (targets : List App) (limit : Nat)
    (ex pf : App) (sx sp : Option ℚ)
    (hq : jsTrim q ≠ "")
    (hex : (ex, sx) ∈ fuse (jsTrim q) targets (limit * 2))
    (hpf : (pf, sp) ∈ fuse (jsTrim q) targets (limit * 2))
    (hbounds : ∀ r ∈ fuse (jsTrim q) targets (limit * 2),
      0 ≤ r.2.getD 1 ∧ r.2.getD 1 ≤ 26/100)
    (hnodup : ((fuse (jsTrim q) targets (limit * 2)).map Prod.fst).Nodup)
    (hexn : lowerStr ex.name = lowerStr (jsTrim q))
    (hpfn : lowerStr pf.name ≠ lowerStr (jsTrim q))
    (hpfs : strStarts (lowerStr pf.name) (lowerStr (jsTrim q)) = true) :
    ∀ j, (searchApps fuse q targets limit).get? j = some pf →
      ∃ i, i < j ∧ (searchApps fuse q targets limit).get? i = some ex := by
  intro j hj
  have hout : searchApps fuse q targets limit =
      ((jsSort (fun a b : App × ℚ => decide (b.2 - a.2 < 0))
        ((fuse (jsTrim q) targets (limit * 2)).map
          (fun r => (r.1, relOf (jsTrim q) r)))).take limit).map (·.1) := by
    simp only [searchApps]
    rw [if_neg hq]
  -- names and relevance values of the two raw results
  have hexname : ex.name ≠ "" := by
    intro h
    rw [h] at hexn
    have : lowerStr (jsTrim q) = "" := by
      rw [← hexn]; rfl
    exact hq ((lowerStr_eq_empty_iff _).mp this)
  have hqldata : (lowerStr (jsTrim q)).data ≠ [] := by
    intro h
    exact hq ((lowerStr_eq_empty_iff _).mp (String.ext h))
  have hpfname : pf.name ≠ "" := by
    intro h
    rw [h] at hpfs
    have hlow : lowerStr "" = "" := rfl
    rw [hlow] at hpfs
    simp only [strStarts] at hpfs
    cases hd : (lowerStr (jsTrim q)).data with
    | nil => exact hqldata hd
    | cons c cs =>
      rw [hd] at hpfs
      simp [List.isPrefixOf] at hpfs
  have hexrel : relOf (jsTrim q) (ex, sx) = 1 - sx.getD 1 + 7/10 := by
    simp [relOf, hexname, hexn]
  have hpfrel : relOf (jsTrim q) (pf, sp) = 1 - sp.getD 1 + 4/10 := by
    simp [relOf, hpfname, hpfn, hpfs]
  have hgt : relOf (jsTrim q) (pf, sp) < relOf (jsTrim q) (ex, sx) := by
    rw [hexrel, hpfrel]
    have h1 := (hbounds (ex, sx) hex).2
    have h2 := (hbounds (pf, sp) hpf).1
    simp only at h1 h2
    linarith
  have hne : ex ≠ pf := by
    intro h
    rw [h] at hexn
    exact hpfn hexn
  -- sortedness of the scored list
  have htrans : ∀ x y z : App × ℚ,
      (decide ((y.2 : ℚ) - x.2 < 0)) = true → (decide ((z.2 : ℚ) - y.2 < 0)) = true →
      (decide ((z.2 : ℚ) - x.2 < 0)) = true := by
    intro x y z hxy hyz
    rw [decide_eq_true_eq] at hxy hyz ⊢
    linarith
  have hasym : ∀ x y : App × ℚ,
      (decide ((y.2 : ℚ) - x.2 < 0)) = true → (decide ((x.2 : ℚ) - y.2 < 0)) = false := by
    intro x y hxy
    rw [decide_eq_true_eq] at hxy
    rw [decide_eq_false_iff_not]
    linarith
  have hsorted_pw := jsSort_pairwise htrans hasym
    ((fuse (jsTrim q) targets (limit * 2)).map
      (fun r => (r.1, relOf (jsTrim q) r)))
  -- locate the mere-prefix pair at position j
  rw [hout] at hj
  rw [List.get?_map] at hj
  obtain ⟨w, hw, hw1⟩ : ∃ w, (((jsSort (fun a b : App × ℚ => decide (b.2 - a.2 < 0))
      ((fuse (jsTrim q) targets (limit * 2)).map
        (fun r => (r.1, relOf (jsTrim q) r)))).take limit)).get? j = some w ∧ w.1 = pf := by
    cases hvw : (((jsSort (fun a b : App × ℚ => decide (b.2 - a.2 < 0))
        ((fuse (jsTrim q) targets (limit * 2)).map
          (fun r => (r.1, relOf (jsTrim q) r)))).take limit)).get? j with
    | none => rw [hvw] at hj; exact absurd hj (by simp)
    | some w =>
      rw [hvw] at hj
      simp only [Option.map_some', Option.some.injEq] at hj
      exact ⟨w, rfl, hj⟩
  have hjlt : j < limit := by
    obtain ⟨hlen, -⟩ := List.get?_eq_some.mp hw
    have h2 := List.length_take_le limit (jsSort (fun a b : App × ℚ => decide (b.2 - a.2 < 0))
      ((fuse (jsTrim q) targets (limit * 2)).map
        (fun r => (r.1, relOf (jsTrim q) r))))
    omega
  have hwj : (jsSort (fun a b : App × ℚ => decide (b.2 - a.2 < 0))
      ((fuse (jsTrim q) targets (limit * 2)).map
        (fun r => (r.1, relOf (jsTrim q) r)))).get? j = some w := by
    rw [← List.get?_take hjlt]
    exact hw
  -- identify w as the scored mere-prefix pair
  have hwmem : w ∈ (fuse (jsTrim q) targets (limit * 2)).map
      (fun r => (r.1, relOf (jsTrim q) r)) :=
    (jsSort_perm _ _).mem_iff.mp (List.get?_mem hwj)
  obtain ⟨r0, hr0mem, hr0⟩ := List.mem_map.mp hwmem
  have hr01 : r0.1 = pf := by
    rw [← hw1, ← hr0]
  have hr0eq : r0 = (pf, sp) := by
    refine List.inj_on_of_nodup_map hnodup hr0mem hpf ?_
    simpa using hr01
  have hw2 : w = (pf, relOf (jsTrim q) (pf, sp)) := by
    rw [← hr0, hr0eq]
  -- the exact pair sits somewhere in the sorted list
  have hexmem : (ex, relOf (jsTrim q) (ex, sx)) ∈
      jsSort (fun a b : App × ℚ => decide (b.2 - a.2 < 0))
        ((fuse (jsTrim q) targets (limit * 2)).map
          (fun r => (r.1, relOf (jsTrim q) r))) := by
    refine (jsSort_perm _ _).mem_iff.mpr ?_
    exact List.mem_map_of_mem _ hex
  obtain ⟨i, hi⟩ := List.get?_of_mem hexmem
  -- it must sit strictly earlier than position j
  have hij : i < j := by
    rcases lt_trichotomy i j with h | h | h
    · exact h
    · exfalso
      rw [h, hwj] at hi
      have hweq : w = (ex, relOf (jsTrim q) (ex, sx)) := Option.some.inj hi
      rw [hw2] at hweq
      exact hne (congrArg Prod.fst hweq).symm
    · exfalso
      have hpw := List.pairwise_iff_get.mp hsorted_pw
      obtain ⟨hjlen, hjget⟩ := List.get?_eq_some.mp hwj
      obtain ⟨hilen, higet⟩ := List.get?_eq_some.mp hi
      have hrel := hpw ⟨j, hjlen⟩ ⟨i, hilen⟩ h
      rw [higet, hjget, hw2] at hrel
      rw [decide_eq_false_iff_not] at hrel
      apply hrel
      simpa using hgt
  refine ⟨i, hij, ?_⟩
  rw [hout, List.get?_map, List.get?_take (lt_trans hij hjlt), hi]
  rfl

/-- C5: for a non-empty query, each raw fuzzy result's relevance is
`1 - fuzzyScore` plus exactly one bonus (+0.7 exact case-insensitive name
equality, else +0.4 name-prefix, else +0.18 substring, else nothing);
results are sorted by relevance descending and truncated to `limit`; and —
given the raw fuzzy scores lie in the engine's configured range
[0, 0.26] (`threshold: 0.26` in `search.js`; Fuse.js scores are 0 for a
perfect match, at most the threshold for any returned match) and the raw
results carry distinct items — a candidate whose name exactly equals the
query always appears strictly before one whose name merely starts with
it. -/
theorem c5_search_relevance_ranking :
    (∀ (q : String) (r : App × Option ℚ), q ≠ "" →
      relOf q r = (1 - r.2.getD 1) + relBonusSpec q r.1.name)
    ∧ (∀ fuse q targets limit, (searchApps fuse q targets limit).length ≤ limit)
    ∧ (∀ fuse q targets limit (ex pf : App) (sx sp : Option ℚ),
        jsTrim q ≠ "" →
        (ex, sx) ∈ fuse (jsTrim q) targets (limit * 2) →
        (pf, sp) ∈ fuse (jsTrim q) targets (limit * 2) →
        (∀ r ∈ fuse (jsTrim q) targets (limit * 2),
          0 ≤ r.2.getD 1 ∧ r.2.getD 1 ≤ 26/100) →
        ((fuse (jsTrim q) targets (limit * 2)).map Prod.fst).Nodup →
        lowerStr ex.name = lowerStr (jsTrim q) →
        lowerStr pf.name ≠ lowerStr (jsTrim q) →
        strStarts (lowerStr pf.name) (lowerStr (jsTrim q)) = true →
        ∀ j, (searchApps fuse q targets limit).get? j = some pf →
          ∃ i, i < j ∧ (searchApps fuse q targets limit).get? i = some ex) :=
  ⟨relOf_eq_spec, searchApps_length_le, searchApps_exact_above_mere_prefix⟩

theorem c5_fuse_bounds :
    ∀ r ∈ cFuse (jsTrim "exactname") [] (50 * 2),
      0 ≤ r.2.getD 1 ∧ r.2.getD 1 ≤ 26/100 := by
  intro r hr
  simp only [cFuse, List.mem_cons, List.mem_singleton, List.not_mem_nil,
    or_false] at hr
  rcases hr with rfl | rfl <;> constructor <;> norm_num

theorem c5_relOf_exact_eval : relOf "exactname" (exApp, some 0) = 17/10 := by
  have hc : (decide (exApp.name ≠ "")
      && decide (lowerStr exApp.name = lowerStr "exactname")) = true := by decide
  simp only [relOf, hc, if_true]
  norm_num

theorem c5_relOf_prefix_eval : relOf "exactname" (pfApp, some 0) = 14/10 := by
  have hc1 : (decide (pfApp.name ≠ "")
      && decide (lowerStr pfApp.name = lowerStr "exactname")) = false := by decide
  have hc2 : (decide (pfApp.name ≠ "")
      && strStarts (lowerStr pfApp.name) (lowerStr "exactname")) = true := by decide
  simp only [relOf, hc1, hc2, if_true, Bool.false_eq_true, if_false, ite_false]
  norm_num

theorem c5_searchApps_eval :
    searchApps cFuse "exactname" [] 50 = [exApp, pfApp] := by
  have hq : jsTrim "exactname" = "exactname" := by decide
  have hq2 : (jsTrim "exactname" = "") = False := by
    rw [hq]; simp
  have hlt : (decide ((relOf "exactname" (exApp, some 0) : ℚ)
      - relOf "exactname" (pfApp, some 0) < 0)) = false := by
    rw [c5_relOf_exact_eval, c5_relOf_prefix_eval, decide_eq_false_iff_not]
    norm_num
  simp only [searchApps, cFuse, hq, hq2, if_false, ite_false, List.map_cons,
    List.map_nil, jsSort, List.foldl_cons, List.foldl_nil, insertStable, hlt,
    Bool.false_eq_true, List.take_succ_cons, List.take_nil]
  rfl

theorem c5_witness :
    (searchApps cFuse "exactname" [] 50).get? 1 = some pfApp
    ∧ ∃ i, i < 1 ∧ (searchApps cFuse "exactname" [] 50).get? i = some exApp := by
  have hget : (searchApps cFuse "exactname" [] 50).get? 1 = some pfApp := by
    rw [c5_searchApps_eval]
    rfl
  refine ⟨hget, ?_⟩
  exact c5_search_relevance_ranking.2.2 cFuse "exactname" [] 50 exApp pfApp
    (some 0) (some 0) (by decide) (by decide) (by decide)
    c5_fuse_bounds (by decide) (by decide) (by decide) (by decide)
    1 hget

theorem firstNonEmpty_singleton (x : String) : firstNonEmpty [x] = x := by
  by_cases h : x = ""
  · simp [firstNonEmpty, List.find?, h]
  · simp [firstNonEmpty, List.find?, h]

theorem firstNonEmpty_append (xs ys : List String) :
    firstNonEmpty (xs ++ ys) =
      if firstNonEmpty xs ≠ "" then firstNonEmpty xs else firstNonEmpty ys := by
  unfold firstNonEmpty
  rw [List.find?_append]
  cases hx : xs.find? (fun s => decide (s ≠ "")) with
  | none => simp
  | some x =>
    have hxne : x ≠ "" := by
      have := List.find?_some hx
      simpa using this
    simp [Option.orElse, hxne]

theorem dedupPush_nil (acc : List VersionRec) : dedupPush acc [] = acc := rfl

theorem dedupPush_append (acc : List VersionRec) (xs ys : List VersionRec) :
    dedupPush acc (xs ++ ys) = dedupPush (dedupPush acc xs) ys := by
  simp [dedupPush, List.foldl_append]

theorem mergedVersionsSpec_snoc (g : App) (rest : List App) (a : App) :
    mergedVersionsSpec (g :: (rest ++ [a])) =
      dedupPush (mergedVersionsSpec (g :: rest)) a.versions := by
  simp [mergedVersionsSpec, List.flatMap_append, dedupPush_append]

theorem groupApps_append (l1 l2 : List App) (b : String) :
    groupApps (l1 ++ l2) b = groupApps l1 b ++ groupApps l2 b := by
  simp [groupApps, List.filter_append]

theorem groupApps_singleton_mem (a : App) (b : String) (h : jsTrim a.bundle = b) :
    groupApps [a] b = [a] := by
  simp [groupApps, List.filter, h]

theorem groupApps_singleton_not (a : App) (b : String) (h : jsTrim a.bundle ≠ b) :
    groupApps [a] b = [] := by
  simp [groupApps, List.filter, h]

theorem keepFirsts_congr (s1 s2 : List String) (l : List VersionRec)
    (h : ∀ x, x ∈ s1 ↔ x ∈ s2) :
    keepFirsts s1 l = keepFirsts s2 l := by
  induction l generalizing s1 s2 with
  | nil => rfl
  | cons v t ih =>
    have hc : s1.contains (vkey v) = s2.contains (vkey v) := by
      simp only [List.contains]
      by_cases hm : vkey v ∈ s1
      · rw [List.elem_iff.mpr hm, List.elem_iff.mpr ((h _).mp hm)]
      · have hm2 : vkey v ∉ s2 := fun hx => hm ((h _).mpr hx)
        rw [Bool.eq_false_iff.mpr (fun hx => hm (List.elem_iff.mp hx)),
          Bool.eq_false_iff.mpr (fun hx => hm2 (List.elem_iff.mp hx))]
    simp only [keepFirsts, hc]
    by_cases hm : s2.contains (vkey v)
    · simp only [hm, if_true]
      exact ih s1 s2 h
    · simp only [hm, Bool.false_eq_true, if_false, ite_false]
      congr 1
      refine ih _ _ ?_
      intro x
      simp only [List.mem_cons]
      constructor
      · rintro (rfl | hx)
        · exact Or.inl rfl
        · exact Or.inr ((h x).mp hx)
      · rintro (rfl | hx)
        · exact Or.inl rfl
        · exact Or.inr ((h x).mpr hx)

theorem dedupPush_eq (acc l : List VersionRec) :
    dedupPush acc l = acc ++ keepFirsts (acc.map vkey) l := by
  induction l generalizing acc with
  | nil => simp [dedupPush, keepFirsts]
  | cons v t ih =>
    have hstep : dedupPush acc (v :: t) =
        if (acc.map vkey).contains (vkey v) then dedupPush acc t
        else dedupPush (acc ++ [v]) t := by
      simp only [dedupPush, List.foldl_cons]
      by_cases h : (acc.map vkey).contains (vkey v)
      · rw [if_pos h, if_pos h]
      · rw [if_neg h, if_neg h]
    rw [hstep]
    by_cases h : (acc.map vkey).contains (vkey v)
    · rw [if_pos h, ih]
      simp only [keepFirsts, h, if_true]
    · rw [if_neg h, ih]
      simp only [keepFirsts, h, Bool.false_eq_true, if_false, ite_false]
      have hcongr : keepFirsts ((acc ++ [v]).map vkey) t
          = keepFirsts (vkey v :: acc.map vkey) t := by
        refine keepFirsts_congr _ _ t ?_
        intro x
        simp only [List.map_append, List.map_cons, List.map_nil, List.mem_append,
          List.mem_singleton, List.mem_cons]
        tauto
      rw [hcongr]
      simp [List.append_assoc]

theorem keepFirsts_no_key_of_seen (seen : List String) (l : List VersionRec)
    (k : String) (h : k ∈ seen) :
    ∀ v ∈ keepFirsts seen l, vkey v ≠ k := by
  induction l generalizing seen with
  | nil => intro v hv; simp [keepFirsts] at hv
  | cons v t ih =>
    intro w hw
    simp only [keepFirsts] at hw
    by_cases hc : seen.contains (vkey v)
    · rw [if_pos hc] at hw
      exact ih seen h w hw
    · rw [if_neg hc] at hw
      rcases List.mem_cons.mp hw with rfl | hw2
      · intro hk
        exact hc (List.elem_iff.mpr (hk ▸ h))
      · exact ih (vkey v :: seen) (List.mem_cons_of_mem _ h) w hw2

theorem keepFirsts_countP_of_seen (seen : List String) (l : List VersionRec)
    (k : String) (h : k ∈ seen) :
    (keepFirsts seen l).countP (fun v => decide (vkey v = k)) = 0 := by
  rw [List.countP_eq_zero]
  intro v hv
  simp only [decide_eq_true_eq]
  exact keepFirsts_no_key_of_seen seen l k h v hv

theorem keepFirsts_countP_of_not_seen (seen : List String) (l : List VersionRec)
    (k : String) (h : k ∉ seen) :
    (keepFirsts seen l).countP (fun v => decide (vkey v = k)) =
      min 1 (l.countP (fun v => decide (vkey v = k))) := by
  induction l generalizing seen with
  | nil => simp [keepFirsts]
  | cons v t ih =>
    simp only [keepFirsts]
    by_cases hc : seen.contains (vkey v)
    · rw [if_pos hc]
      have hvk : vkey v ≠ k := by
        intro hk
        exact h (hk ▸ List.elem_iff.mp hc)
      rw [ih seen h, List.countP_cons]
      simp [hvk]
    · rw [if_neg hc]
      by_cases hvk : vkey v = k
      · rw [List.countP_cons, List.countP_cons,
          keepFirsts_countP_of_seen (vkey v :: seen) t k (by
            rw [hvk]; exact List.mem_cons_self _ _)]
        simp only [hvk, decide_eq_true_eq]
        simp only [if_pos trivial]
        omega
      · have hns : k ∉ vkey v :: seen := by
          intro hk
          rcases List.mem_cons.mp hk with hk | hk
          · exact hvk hk.symm
          · exact h hk
        rw [List.countP_cons, List.countP_cons, ih _ hns]
        simp [hvk]

theorem keepFirsts_find_first (seen : List String) (l : List VersionRec)
    (k : String) (h : k ∉ seen) :
    ∀ v ∈ keepFirsts seen l, vkey v = k →
      l.find? (fun w => decide (vkey w = k)) = some v := by
  induction l generalizing seen with
  | nil => intro v hv; simp [keepFirsts] at hv
  | cons v t ih =>
    intro w hw hk
    simp only [keepFirsts] at hw
    by_cases hc : seen.contains (vkey v)
    · rw [if_pos hc] at hw
      have hvk : vkey v ≠ k := by
        intro he
        exact h (he ▸ List.elem_iff.mp hc)
      rw [List.find?_cons_of_neg _ (by simp [hvk])]
      exact ih seen h w hw hk
    · rw [if_neg hc] at hw
      rcases List.mem_cons.mp hw with rfl | hw2
      · rw [List.find?_cons_of_pos _ (by simp [hk])]
      · have hvk : vkey v ≠ k := by
          intro he
          have := keepFirsts_no_key_of_seen (vkey v :: seen) t k
            (he ▸ List.mem_cons_self _ _) w hw2
          exact this hk
        rw [List.find?_cons_of_neg _ (by simp [hvk])]
        refine ih (vkey v :: seen) ?_ w hw2 hk
        intro hmem
        rcases List.mem_cons.mp hmem with he | he
        · exact hvk he.symm
        · exact h he

theorem countP_vkey_eq_count (l : List VersionRec) (k : String) :
    l.countP (fun v => decide (vkey v = k)) = (l.map vkey).count k := by
  induction l with
  | nil => rfl
  | cons v t ih =>
    rw [List.countP_cons, List.map_cons, List.count_cons, ih]
    by_cases h : vkey v = k
    · simp [h]
    · simp [h]

theorem eq_of_countP_le_one {p : VersionRec → Bool} {l : List VersionRec}
    (h : l.countP p ≤ 1) {v w : VersionRec}
    (hv : v ∈ l) (hpv : p v = true) (hw : w ∈ l) (hpw : p w = true) : v = w := by
  induction l with
  | nil => simp at hv
  | cons a t ih =>
    rw [List.countP_cons] at h
    rcases List.mem_cons.mp hv with rfl | hv2
    · rcases List.mem_cons.mp hw with rfl | hw2
      · rfl
      · exfalso
        have h0 : t.countP p = 0 := by
          simp only [hpv, if_true] at h
          omega
        have := List.countP_eq_zero.mp h0 w hw2
        simp [hpw] at this
    · rcases List.mem_cons.mp hw with rfl | hw2
      · exfalso
        have h0 : t.countP p = 0 := by
          simp only [hpw, if_true] at h
          omega
        have := List.countP_eq_zero.mp h0 v hv2
        simp [hpv] at this
      · exact ih (by omega) hv2 hw2

theorem mergedVersionsSpec_countP (g : App) (rest : List App) (k : String)
    (hg : (g.versions.map vkey).Nodup)
    (hmem : k ∈ (g.versions.map vkey)
      ∨ k ∈ ((rest.flatMap (·.versions)).map vkey)) :
    (mergedVersionsSpec (g :: rest)).countP (fun v => decide (vkey v = k)) = 1 := by
  rw [show mergedVersionsSpec (g :: rest)
      = dedupPush g.versions (rest.flatMap (·.versions)) from rfl,
    dedupPush_eq, List.countP_append]
  by_cases hk : k ∈ g.versions.map vkey
  · rw [keepFirsts_countP_of_seen _ _ _ hk, countP_vkey_eq_count,
      List.count_eq_one_of_mem hg hk]
  · have h0 : g.versions.countP (fun v => decide (vkey v = k)) = 0 := by
      rw [countP_vkey_eq_count]
      exact List.count_eq_zero_of_not_mem hk
    have hr : k ∈ (rest.flatMap (·.versions)).map vkey := by
      rcases hmem with hm | hm
      · exact absurd hm hk
      · exact hm
    have hpos : 0 < (rest.flatMap (·.versions)).countP (fun v => decide (vkey v = k)) := by
      rw [countP_vkey_eq_count]
      exact List.count_pos_iff_mem.mpr hr
    rw [h0, keepFirsts_countP_of_not_seen _ _ _ hk]
    omega

theorem mergedVersionsSpec_first (g : App) (rest : List App) (k : String)
    (hg : (g.versions.map vkey).Nodup) :
    ∀ v ∈ mergedVersionsSpec (g :: rest), vkey v = k →
      ((g :: rest).flatMap (·.versions)).find? (fun w => decide (vkey w = k))
        = some v := by
  intro v hv hk
  rw [show mergedVersionsSpec (g :: rest)
      = dedupPush g.versions (rest.flatMap (·.versions)) from rfl,
    dedupPush_eq] at hv
  rw [show (g :: rest).flatMap (·.versions)
      = g.versions ++ rest.flatMap (·.versions) from rfl,
    List.find?_append]
  by_cases hkg : k ∈ g.versions.map vkey
  · -- the record lives in the first member's verbatim list
    have hvg : v ∈ g.versions := by
      rcases List.mem_append.mp hv with hv1 | hv1
      · exact hv1
      · exact absurd hk (keepFirsts_no_key_of_seen _ _ _ hkg v hv1)
    obtain ⟨w, hwk, hwfind⟩ : ∃ w, vkey w = k ∧
        g.versions.find? (fun w => decide (vkey w = k)) = some w := by
      obtain ⟨w0, hw0⟩ := List.mem_map.mp hkg
      have : g.versions.find? (fun w => decide (vkey w = k)) ≠ none := by
        rw [Ne, List.find?_eq_none]
        push_neg
        exact ⟨w0, hw0.1, by simp [hw0.2]⟩
      cases hf : g.versions.find? (fun w => decide (vkey w = k)) with
      | none => exact absurd hf this
      | some w =>
        refine ⟨w, ?_, rfl⟩
        have := List.find?_some hf
        simpa using this
    have hcount : g.versions.countP (fun v => decide (vkey v = k)) ≤ 1 := by
      rw [countP_vkey_eq_count, List.count_eq_one_of_mem hg hkg]
    have hveq : v = w :=
      eq_of_countP_le_one hcount hvg (by simp [hk])
        (List.mem_of_find?_eq_some hwfind) (by simp [hwk])
    rw [hwfind]
    exact congrArg some hveq.symm
  · -- the record was appended by a later member
    have h0 : g.versions.find? (fun w => decide (vkey w = k)) = none := by
      rw [List.find?_eq_none]
      intro w hw
      simp only [decide_eq_true_eq]
      intro he
      exact hkg (List.mem_map.mpr ⟨w, hw, he⟩)
    have hvr : v ∈ keepFirsts (g.versions.map vkey) (rest.flatMap (·.versions)) := by
      rcases List.mem_append.mp hv with hv1 | hv1
      · exfalso
        exact hkg (List.mem_map.mpr ⟨v, hv1, hk⟩)
      · exact hv1
    rw [h0]
    exact keepFirsts_find_first _ _ _ hkg v hvr hk

theorem mergeState_snoc (l : List App) (a : App) :
    mergeState (l ++ [a]) = mergeStep (mergeState l) a := by
  simp [mergeState, List.foldl_append]

theorem findEntry_eq_none_iff (es : List (MKey × App)) (k : MKey) :
    findEntry es k = none ↔ ∀ e ∈ es, e.1 ≠ k := by
  simp only [findEntry, Option.map_eq_none', List.find?_eq_none,
    decide_eq_true_eq]

theorem findEntry_eq_some_mem (es : List (MKey × App)) (k : MKey) (acc : App)
    (h : findEntry es k = some acc) : (k, acc) ∈ es := by
  simp only [findEntry, Option.map_eq_some'] at h
  obtain ⟨e, he, he2⟩ := h
  have hk : e.1 = k := by
    have := List.find?_some he
    simpa using this
  have hmem := List.mem_of_find?_eq_some he
  have : e = (k, acc) := by
    cases e
    simp only at hk he2
    rw [hk, he2]
  rw [← this]
  exact hmem

theorem updateEntry_keys (es : List (MKey × App)) (k : MKey) (v : App) :
    (updateEntry es k v).map (·.1) = es.map (·.1) := by
  simp only [updateEntry, List.map_map]
  refine List.map_congr_left ?_
  intro e he
  by_cases h : e.1 = k
  · simp [h]
  · simp [h]

theorem updateEntry_filterMap_str (es : List (MKey × App)) (k : MKey) (v : App) :
    (updateEntry es k v).filterMap strKeyOf = es.filterMap strKeyOf := by
  simp only [updateEntry, List.filterMap_map]
  refine List.filterMap_congr ?_
  intro e he
  by_cases h : e.1 = k
  · simp [h, strKeyOf]
  · simp [h]

theorem mem_updateEntry {es : List (MKey × App)} {k : MKey} {v : App}
    {e' : MKey × App} (h : e' ∈ updateEntry es k v) :
    (e' ∈ es ∧ e'.1 ≠ k) ∨ (e' = (k, v) ∧ ∃ e2 ∈ es, e2.1 = k) := by
  simp only [updateEntry, List.mem_map] at h
  obtain ⟨e, he, heq⟩ := h
  by_cases hk : e.1 = k
  · right
    rw [if_pos hk] at heq
    exact ⟨by rw [← heq, hk], e, he, hk⟩
  · left
    rw [if_neg hk] at heq
    rw [← heq]
    exact ⟨he, hk⟩

theorem strKeyOf_eq_some {e : MKey × App} {s : String} :
    strKeyOf e = some s ↔ e.1 = MKey.str s := by
  cases e with
  | mk k a =>
    cases k with
    | str t => simp [strKeyOf]
    | sym n => simp [strKeyOf]

/-- Invariant: a string key is in the map exactly for the non-empty trimmed
bundles seen so far. -/
theorem mergeState_keyMem (apps : List App) (s : String) :
    (MKey.str s) ∈ (mergeState apps).entries.map (·.1) ↔
      (s ≠ "" ∧ ∃ a ∈ apps, jsTrim a.bundle = s) := by
  induction apps using List.reverseRecOn with
  | nil => simp [mergeState]
  | append_singleton l a ih =>
    rw [mergeState_snoc]
    simp only [mergeStep]
    by_cases hb : jsTrim a.bundle = ""
    · rw [if_pos hb]
      simp only [List.map_append, List.map_cons, List.map_nil, List.mem_append,
        List.mem_singleton]
      constructor
      · rintro (h | h)
        · obtain ⟨hs, a', ha', hta⟩ := ih.mp h
          exact ⟨hs, a', Or.inl ha', hta⟩
        · simp at h
      · rintro ⟨hs, a', ha', hta⟩
        rcases ha' with ha2 | ha2
        · exact Or.inl (ih.mpr ⟨hs, a', ha2, hta⟩)
        · rw [ha2] at hta
          rw [hta] at hb
          exact absurd hb hs
    · rw [if_neg hb]
      cases hfind : findEntry (mergeState l).entries (.str (jsTrim a.bundle)) with
      | none =>
        simp only [hfind]
        simp only [List.map_append, List.map_cons, List.map_nil, List.mem_append,
          List.mem_singleton, MKey.str.injEq]
        constructor
        · rintro (h | h)
          · obtain ⟨hs, a', ha', hta⟩ := ih.mp h
            exact ⟨hs, a', Or.inl ha', hta⟩
          · subst h
            exact ⟨hb, a, Or.inr rfl, rfl⟩
        · rintro ⟨hs, a', ha', hta⟩
          rcases ha' with ha2 | ha2
          · exact Or.inl (ih.mpr ⟨hs, a', ha2, hta⟩)
          · rw [ha2] at hta
            exact Or.inr hta.symm
      | some acc =>
        simp only [hfind]
        rw [updateEntry_keys]
        constructor
        · intro h
          obtain ⟨hs, a', ha', hta⟩ := ih.mp h
          exact ⟨hs, a', List.mem_append_left _ ha', hta⟩
        · rintro ⟨hs, a', ha', hta⟩
          rcases List.mem_append.mp ha' with ha2 | ha2
          · exact ih.mpr ⟨hs, a', ha2, hta⟩
          · rw [List.mem_singleton.mp ha2] at hta
            have : (MKey.str (jsTrim a.bundle), acc) ∈ (mergeState l).entries :=
              findEntry_eq_some_mem _ _ _ hfind
            rw [← hta]
            exact List.mem_map.mpr ⟨_, this, rfl⟩

theorem mergeState_nodupKeys (apps : List App) :
    ((mergeState apps).entries.filterMap strKeyOf).Nodup := by
  induction apps using List.reverseRecOn with
  | nil => simp [mergeState]
  | append_singleton l a ih =>
    rw [mergeState_snoc]
    simp only [mergeStep]
    by_cases hb : jsTrim a.bundle = ""
    · rw [if_pos hb]
      simpa [List.filterMap_append, strKeyOf] using ih
    · rw [if_neg hb]
      cases hfind : findEntry (mergeState l).entries (.str (jsTrim a.bundle)) with
      | none =>
        simp only [hfind]
        rw [List.filterMap_append]
        have hsingle : List.filterMap strKeyOf
            [(MKey.str (jsTrim a.bundle), { a with ident := none })]
            = [jsTrim a.bundle] := by
          simp [strKeyOf]
        rw [hsingle]
        rw [List.nodup_append]
        refine ⟨ih, List.nodup_singleton _, ?_⟩
        intro x hx
        simp only [List.mem_singleton]
        intro hxe
        subst hxe
        obtain ⟨e, he, hke⟩ := List.mem_filterMap.mp hx
        have := (findEntry_eq_none_iff _ _).mp hfind e he
        exact this (strKeyOf_eq_some.mp hke)
      | some acc =>
        simp only [hfind]
        rw [updateEntry_filterMap_str]
        exact ih

theorem mergeState_symEntry (apps : List App) :
    ∀ e ∈ (mergeState apps).entries, (∀ s, e.1 ≠ MKey.str s) →
      ∃ a ∈ apps, e.2 = a ∧ jsTrim a.bundle = "" := by
  induction apps using List.reverseRecOn with
  | nil => simp [mergeState]
  | append_singleton l a ih =>
    rw [mergeState_snoc]
    simp only [mergeStep]
    by_cases hb : jsTrim a.bundle = ""
    · rw [if_pos hb]
      intro e he hstr
      rcases List.mem_append.mp he with he2 | he2
      · obtain ⟨a', ha', he3, ht⟩ := ih e he2 hstr
        exact ⟨a', List.mem_append_left _ ha', he3, ht⟩
      · rw [List.mem_singleton.mp he2]
        exact ⟨a, List.mem_append_right _ (List.mem_singleton.mpr rfl), rfl, hb⟩
    · rw [if_neg hb]
      cases hfind : findEntry (mergeState l).entries (.str (jsTrim a.bundle)) with
      | none =>
        simp only [hfind]
        intro e he hstr
        rcases List.mem_append.mp he with he2 | he2
        · obtain ⟨a', ha', he3, ht⟩ := ih e he2 hstr
          exact ⟨a', List.mem_append_left _ ha', he3, ht⟩
        · rw [List.mem_singleton.mp he2] at hstr
          exact absurd rfl (hstr (jsTrim a.bundle))
      | some acc =>
        simp only [hfind]
        intro e he hstr
        rcases mem_updateEntry he with ⟨he2, -⟩ | ⟨he2, -⟩
        · obtain ⟨a', ha', he3, ht⟩ := ih e he2 hstr
          exact ⟨a', List.mem_append_left _ ha', he3, ht⟩
        · rw [he2] at hstr
          exact absurd rfl (hstr (jsTrim a.bundle))

/-- Invariant: the record stored under a string key carries the group's
first-truthy-wins scalar fields and its deduplicated version union, is a
fresh copy (`ident = none`), and keeps the first member's bundle string
(whose trim is the key). -/
theorem mergeState_strEntry (apps : List App) :
    ∀ e ∈ (mergeState apps).entries, ∀ s, e.1 = MKey.str s →
      jsTrim e.2.bundle = s
      ∧ e.2.ident = none
      ∧ e.2.name = firstNonEmpty ((groupApps apps s).map (·.name))
      ∧ e.2.icon = firstNonEmpty ((groupApps apps s).map (·.icon))
      ∧ e.2.dev = firstNonEmpty ((groupApps apps s).map (·.dev))
      ∧ e.2.desc = firstNonEmpty ((groupApps apps s).map (·.desc))
      ∧ e.2.versions = mergedVersionsSpec (groupApps apps s) := by
  induction apps using List.reverseRecOn with
  | nil => simp [mergeState]
  | append_singleton l a ih =>
    rw [mergeState_snoc]
    simp only [mergeStep]
    by_cases hb : jsTrim a.bundle = ""
    · rw [if_pos hb]
      intro e he s hs
      rcases List.mem_append.mp he with he2 | he2
      · have hs0 : s ≠ "" := by
          have hmem : MKey.str s ∈ (mergeState l).entries.map (·.1) :=
            List.mem_map.mpr ⟨e, he2, hs⟩
          exact ((mergeState_keyMem l s).mp hmem).1
        have hga : groupApps [a] s = [] :=
          groupApps_singleton_not a s (by rw [hb]; exact fun h => hs0 h.symm)
        rw [groupApps_append, hga, List.append_nil]
        exact ih e he2 s hs
      · rw [List.mem_singleton.mp he2] at hs
        simp at hs
    · rw [if_neg hb]
      cases hfind : findEntry (mergeState l).entries (.str (jsTrim a.bundle)) with
      | none =>
        simp only [hfind]
        intro e he s hs
        rcases List.mem_append.mp he with he2 | he2
        · have hsb : s ≠ jsTrim a.bundle := by
            intro heq
            have := (findEntry_eq_none_iff _ _).mp hfind e he2
            rw [← heq] at this
            exact this hs
          have hga : groupApps [a] s = [] :=
            groupApps_singleton_not a s (fun h => hsb h.symm)
          rw [groupApps_append, hga, List.append_nil]
          exact ih e he2 s hs
        · rw [List.mem_singleton.mp he2] at hs ⊢
          simp only [MKey.str.injEq] at hs
          subst hs
          have hgl : groupApps l (jsTrim a.bundle) = [] := by
            simp only [groupApps]
            rw [List.filter_eq_nil]
            intro a' ha'
            simp only [decide_eq_true_eq]
            intro hta
            have hmem : MKey.str (jsTrim a.bundle) ∈ (mergeState l).entries.map (·.1) :=
              (mergeState_keyMem l _).mpr ⟨hb, a', ha', hta⟩
            obtain ⟨e2, he2, hke⟩ := List.mem_map.mp hmem
            exact (findEntry_eq_none_iff _ _).mp hfind e2 he2 hke
          have hga : groupApps [a] (jsTrim a.bundle) = [a] :=
            groupApps_singleton_mem a _ rfl
          rw [groupApps_append, hgl, hga, List.nil_append]
          refine ⟨rfl, rfl, ?_, ?_, ?_, ?_, ?_⟩
          · simp [firstNonEmpty_singleton]
          · simp [firstNonEmpty_singleton]
          · simp [firstNonEmpty_singleton]
          · simp [firstNonEmpty_singleton]
          · simp [mergedVersionsSpec, dedupPush]
      | some acc =>
        simp only [hfind]
        intro e he s hs
        rcases mem_updateEntry he with ⟨he2, hne⟩ | ⟨heq, -⟩
        · have hsb : s ≠ jsTrim a.bundle := by
            intro heqs
            rw [heqs] at hs
            exact hne hs
          have hga : groupApps [a] s = [] :=
            groupApps_singleton_not a s (fun h => hsb h.symm)
          rw [groupApps_append, hga, List.append_nil]
          exact ih e he2 s hs
        · rw [heq] at hs ⊢
          simp only [MKey.str.injEq] at hs
          subst hs
          have hacc := ih (MKey.str (jsTrim a.bundle), acc)
            (findEntry_eq_some_mem _ _ _ hfind) (jsTrim a.bundle) rfl
          obtain ⟨hab, hai, han, haic, had, hade, hav⟩ := hacc
          have hga : groupApps [a] (jsTrim a.bundle) = [a] :=
            groupApps_singleton_mem a _ rfl
          have hgrne : groupApps l (jsTrim a.bundle) ≠ [] := by
            have hmem : MKey.str (jsTrim a.bundle) ∈ (mergeState l).entries.map (·.1) :=
              List.mem_map.mpr ⟨_, findEntry_eq_some_mem _ _ _ hfind, rfl⟩
            obtain ⟨-, a', ha', hta⟩ := (mergeState_keyMem l _).mp hmem
            intro hnil
            have : a' ∈ groupApps l (jsTrim a.bundle) := by
              simp [groupApps, List.mem_filter, ha', hta]
            rw [hnil] at this
            simp at this
          rw [groupApps_append, hga]
          cases hgr : groupApps l (jsTrim a.bundle) with
          | nil => exact absurd hgr hgrne
          | cons g rest =>
            rw [hgr] at han haic had hade hav
            refine ⟨hab, hai, ?_, ?_, ?_, ?_, ?_⟩
            · simp only [mergeInto]
              rw [List.map_append, firstNonEmpty_append, ← han]
              simp [firstNonEmpty_singleton]
            · simp only [mergeInto]
              rw [List.map_append, firstNonEmpty_append, ← haic]
              simp [firstNonEmpty_singleton]
            · simp only [mergeInto]
              rw [List.map_append, firstNonEmpty_append, ← had]
              simp [firstNonEmpty_singleton]
            · simp only [mergeInto]
              rw [List.map_append, firstNonEmpty_append, ← hade]
              simp [firstNonEmpty_singleton]
            · simp only [mergeInto]
              rw [hav, show ((g :: rest) ++ [a]) = g :: (rest ++ [a]) from rfl,
                mergedVersionsSpec_snoc]

theorem countP_strkey_eq_count (es : List (MKey × App)) (b : String) :
    es.countP (fun e => decide (e.1 = MKey.str b))
      = (es.filterMap strKeyOf).count b := by
  induction es with
  | nil => rfl
  | cons e t ih =>
    rw [List.countP_cons]
    cases hk : e.1 with
    | str s =>
      rw [List.filterMap_cons_some (strKeyOf_eq_some.mpr hk),
        List.count_cons, ih]
      by_cases hsb : s = b
      · simp [hsb]
      · simp [hsb]
    | sym n =>
      rw [List.filterMap_cons_none
        (show strKeyOf e = none by simp [strKeyOf, hk]), ih]
      simp

/-- Every merged output whose trimmed bundle is a non-empty `b` is the
(version-sorted) group record of `b`. -/
theorem mergeByBundle_out (apps : List App) (o : App) (ho : o ∈ mergeByBundle apps)
    (b : String) (hob : jsTrim o.bundle = b) (hb : b ≠ "") :
    o.ident = none
    ∧ o.name = firstNonEmpty ((groupApps apps b).map (·.name))
    ∧ o.icon = firstNonEmpty ((groupApps apps b).map (·.icon))
    ∧ o.dev = firstNonEmpty ((groupApps apps b).map (·.dev))
    ∧ o.desc = firstNonEmpty ((groupApps apps b).map (·.desc))
    ∧ o.versions = jsSort recLt (mergedVersionsSpec (groupApps apps b)) := by
  obtain ⟨e, he, hoe⟩ := List.mem_map.mp ho
  cases hek : e.1 with
  | sym n =>
    exfalso
    obtain ⟨a, ha, hea, hta⟩ := mergeState_symEntry apps e he
      (by intro s; rw [hek]; simp)
    have : jsTrim o.bundle = "" := by
      rw [← hoe]
      simp only
      rw [hea, hta]
    rw [hob] at this
    exact hb this
  | str s =>
    obtain ⟨hab, hai, han, haic, had, hade, hav⟩ := mergeState_strEntry apps e he s hek
    have hsb : s = b := by
      rw [← hob, ← hoe]
      simp only
      rw [hab]
    subst hsb
    rw [← hoe]
    exact ⟨hai, han, haic, had, hade, by rw [hav]⟩

/-- There is a merged output for every non-empty trimmed bundle present in
the input. -/
theorem mergeByBundle_exists (apps : List App) (b : String) (hb : b ≠ "")
    (hex : ∃ a ∈ apps, jsTrim a.bundle = b) :
    ∃ o ∈ mergeByBundle apps, jsTrim o.bundle = b := by
  have hmem : MKey.str b ∈ (mergeState apps).entries.map (·.1) :=
    (mergeState_keyMem apps b).mpr ⟨hb, hex⟩
  obtain ⟨e, he, hke⟩ := List.mem_map.mp hmem
  refine ⟨{ e.2 with versions := jsSort recLt e.2.versions },
    List.mem_map.mpr ⟨e, he, rfl⟩, ?_⟩
  simp only
  exact (mergeState_strEntry apps e he b hke).1

/-- There is exactly one merged output per non-empty trimmed bundle. -/
theorem mergeByBundle_count_one (apps : List App) (b : String) (hb : b ≠ "")
    (hex : ∃ a ∈ apps, jsTrim a.bundle = b) :
    ((mergeByBundle apps).filter (fun o => decide (jsTrim o.bundle = b))).length = 1 := by
  rw [← List.countP_eq_length_filter]
  unfold mergeByBundle
  rw [List.countP_map]
  have hcongr : (mergeState apps).entries.countP
      ((fun o => decide (jsTrim o.bundle = b)) ∘
        (fun e => { e.2 with versions := jsSort recLt e.2.versions }))
      = (mergeState apps).entries.countP (fun e => decide (e.1 = MKey.str b)) := by
    refine List.countP_congr ?_
    intro e he
    cases hek : e.1 with
    | str s =>
      have hs := (mergeState_strEntry apps e he s hek).1
      simp only [Function.comp, decide_eq_true_eq, MKey.str.injEq]
      rw [show ({ e.2 with versions := jsSort recLt e.2.versions } : App).bundle
          = e.2.bundle from rfl, hs]
    | sym n =>
      obtain ⟨a, ha, hea, hta⟩ := mergeState_symEntry apps e he
        (by intro s; rw [hek]; simp)
      simp only [Function.comp, decide_eq_true_eq]
      rw [show ({ e.2 with versions := jsSort recLt e.2.versions } : App).bundle
          = e.2.bundle from rfl, hea, hta]
      constructor
      · intro h
        exact absurd h.symm hb
      · intro h
        simp at h
  rw [hcongr, countP_strkey_eq_count]
  have hbmem : b ∈ (mergeState apps).entries.filterMap strKeyOf := by
    have hmem : MKey.str b ∈ (mergeState apps).entries.map (·.1) :=
      (mergeState_keyMem apps b).mpr ⟨hb, hex⟩
    obtain ⟨e, he, hke⟩ := List.mem_map.mp hmem
    exact List.mem_filterMap.mpr ⟨e, he, strKeyOf_eq_some.mpr hke⟩
  exact List.count_eq_one_of_mem (mergeState_nodupKeys apps) hbmem

/-- C3 counterexample: two same-bundle entries whose version lists overlap
on the identical pair `("1.0","u")`, yet the merged app's version list
contains that pair twice: the first-seen app's list is copied verbatim and
its internal duplicate is never collapsed. -/
theorem c3_counterexample :
    c3p ∈ c3a1.versions ∧ c3p ∈ c3a2.versions
    ∧ jsTrim c3a1.bundle = jsTrim c3a2.bundle
    ∧ (mergeByBundle [c3a1, c3a2]).map
        (fun o => (o.versions.filter (fun v => decide (vkey v = vkey c3p))).length)
      = [2] := by
  refine ⟨by decide, by decide, by decide, by decide⟩

/-- C3 amended: provided the trimmed bundle is non-empty and no single
input app's version list contains two records with the same dedup key
(`` `${version}|${url}` ``), merging yields exactly one merged app for the
bundle, its version list contains exactly one record with any key the
group contributes, and that record is the first record with that key in
group-encounter order. -/
theorem c3_amended_merge_version_dedup (apps : List App) (b k : String)
    (hb : b ≠ "")
    (hdup : ∀ a ∈ apps, (a.versions.map vkey).Nodup)
    (hkmem : k ∈ (groupVersions apps b).map vkey) :
    ((mergeByBundle apps).filter (fun o => decide (jsTrim o.bundle = b))).length = 1
    ∧ ∀ o ∈ mergeByBundle apps, jsTrim o.bundle = b →
        (o.versions.filter (fun v => decide (vkey v = k))).length = 1
        ∧ ∀ v ∈ o.versions, vkey v = k →
            (groupVersions apps b).find? (fun w => decide (vkey w = k)) = some v := by
  have hex : ∃ a ∈ apps, jsTrim a.bundle = b := by
    obtain ⟨v, hv, -⟩ := List.mem_map.mp hkmem
    obtain ⟨a, ha, hva⟩ := List.mem_flatMap.mp hv
    have := List.mem_filter.mp ha
    exact ⟨a, this.1, by simpa using this.2⟩
  refine ⟨mergeByBundle_count_one apps b hb hex, ?_⟩
  intro o ho hob
  have hout := mergeByBundle_out apps o ho b hob hb
  have hvers := hout.2.2.2.2.2
  cases hgr : groupApps apps b with
  | nil =>
    exfalso
    obtain ⟨a, ha, hta⟩ := hex
    have : a ∈ groupApps apps b := by
      simp [groupApps, List.mem_filter, ha, hta]
    rw [hgr] at this
    simp at this
  | cons g rest =>
    rw [hgr] at hvers
    have hgnd : (g.versions.map vkey).Nodup := by
      have hgmem : g ∈ groupApps apps b := by rw [hgr]; exact List.mem_cons_self _ _
      exact hdup g (List.mem_filter.mp hgmem).1
    have hflat : groupVersions apps b = (g :: rest).flatMap (·.versions) := by
      rw [show groupVersions apps b = (groupApps apps b).flatMap (·.versions) from rfl,
        hgr]
    have hperm : o.versions.Perm (mergedVersionsSpec (g :: rest)) := by
      rw [hvers]
      exact jsSort_perm _ _
    constructor
    · rw [← List.countP_eq_length_filter, hperm.countP_eq]
      refine mergedVersionsSpec_countP g rest k hgnd ?_
      rw [hflat] at hkmem
      rw [show (g :: rest).flatMap (·.versions)
          = g.versions ++ rest.flatMap (·.versions) from rfl] at hkmem
      rw [List.map_append] at hkmem
      exact List.mem_append.mp hkmem
    · intro v hv hvk
      rw [hflat]
      exact mergedVersionsSpec_first g rest k hgnd v (hperm.mem_iff.mp hv) hvk

theorem c3_amended_merge_version_dedup_witness :
    (("b" : String) ≠ ""
      ∧ (∀ a ∈ [c3a2], ((a.versions.map vkey)).Nodup)
      ∧ vkey c3p ∈ (groupVersions [c3a2] "b").map vkey)
    ∧ ((mergeByBundle [c3a2]).filter
        (fun o => decide (jsTrim o.bundle = "b"))).length = 1 :=
  ⟨⟨by decide, by decide, by decide⟩,
   (c3_amended_merge_version_dedup [c3a2] "b" (vkey c3p) (by decide) (by decide)
     (by decide)).1⟩

/-- C4: for every group of apps sharing a non-empty trimmed bundle
identifier, each scalar field (name, icon, developer, description) of the
merged app is the first non-empty value for that field in
source-encounter order; once non-empty, appending further same-bundle
sources never changes it; and merging `{name:"Foo"}` with `{name:""}`
yields name `"Foo"` in either order. -/
theorem c4_merge_scalar_first_nonempty :
    (∀ (apps : List App) (b : String), b ≠ "" →
      (∃ a ∈ apps, jsTrim a.bundle = b) →
      ∃ o ∈ mergeByBundle apps,
        jsTrim o.bundle = b
        ∧ o.name = firstNonEmpty ((groupApps apps b).map (·.name))
        ∧ o.icon = firstNonEmpty ((groupApps apps b).map (·.icon))
        ∧ o.dev = firstNonEmpty ((groupApps apps b).map (·.dev))
        ∧ o.desc = firstNonEmpty ((groupApps apps b).map (·.desc)))
    ∧ (∀ (apps more : List App) (b : String), b ≠ "" →
      ∀ o ∈ mergeByBundle apps, jsTrim o.bundle = b → o.name ≠ "" →
      ∀ o2 ∈ mergeByBundle (apps ++ more), jsTrim o2.bundle = b →
        o2.name = o.name)
    ∧ (mergeByBundle [{ bundle := "b", name := "Foo" }, { bundle := "b", name := "" }]).map (·.name) = ["Foo"]
    ∧ (mergeByBundle [{ bundle := "b", name := "" }, { bundle := "b", name := "Foo" }]).map (·.name) = ["Foo"] := by
  refine ⟨?_, ?_, by decide, by decide⟩
  · intro apps b hb hex
    obtain ⟨o, ho, hob⟩ := mergeByBundle_exists apps b hb hex
    have hout := mergeByBundle_out apps o ho b hob hb
    exact ⟨o, ho, hob, hout.2.1, hout.2.2.1, hout.2.2.2.1, hout.2.2.2.2.1⟩
  · intro apps more b hb o ho hob hne o2 ho2 hob2
    have h1 := (mergeByBundle_out apps o ho b hob hb).2.1
    have h2 := (mergeByBundle_out (apps ++ more) o2 ho2 b hob2 hb).2.1
    rw [h2, groupApps_append, List.map_append, firstNonEmpty_append, ← h1]
    simp [hne]

theorem c4_merge_scalar_first_nonempty_witness :
    (("b" : String) ≠ ""
      ∧ (∃ a ∈ [({ bundle := "b", name := "Foo" } : App)], jsTrim a.bundle = "b"))
    ∧ ∃ o ∈ mergeByBundle [({ bundle := "b", name := "Foo" } : App)],
        jsTrim o.bundle = "b"
        ∧ o.name = firstNonEmpty ((groupApps [({ bundle := "b", name := "Foo" } : App)] "b").map (·.name))
        ∧ o.icon = firstNonEmpty ((groupApps [({ bundle := "b", name := "Foo" } : App)] "b").map (·.icon))
        ∧ o.dev = firstNonEmpty ((groupApps [({ bundle := "b", name := "Foo" } : App)] "b").map (·.dev))
        ∧ o.desc = firstNonEmpty ((groupApps [({ bundle := "b", name := "Foo" } : App)] "b").map (·.desc)) :=
  ⟨⟨by decide, ⟨{ bundle := "b", name := "Foo" }, by decide, by decide⟩⟩,
   c4_merge_scalar_first_nonempty.1 [{ bundle := "b", name := "Foo" }] "b"
     (by decide) ⟨{ bundle := "b", name := "Foo" }, by decide, by decide⟩⟩

/-- C10 counterexample: an input app with an empty bundle identifier is
passed through *by reference* (`map.set(key, a)`), and the final
per-group sort then reorders that shared versions array in place — after
`mergeByBundle` returns, the caller's record has its versions array
reordered (here `["1.0","2.0"]` became `["2.0","1.0"]`). -/
theorem c10_counterexample :
    jsTrim nbApp.bundle = ""
    ∧ inputAfterMerge [nbApp] ≠ [nbApp]
    ∧ (inputAfterMerge [nbApp]).map (fun a => a.versions.map (·.version))
        = [["2.0", "1.0"]] := by
  refine ⟨by decide, by decide, by decide⟩

/-- C10 amended: `mergeByBundle` never mutates its input when every app
has a non-empty trimmed bundle identifier — every such group record is a
fresh spread copy with a copied versions array, so after the call every
input record is unchanged.  (Apps with an empty/missing bundle are shared
by reference and their versions arrays may be reordered in place, as the
counterexample shows.) -/
theorem c10_amended_no_mutation (apps : List App)
    (h : ∀ a ∈ apps, jsTrim a.bundle ≠ "") :
    inputAfterMerge apps = apps := by
  have hout : ∀ o ∈ mergeByBundle apps, o.ident = none := by
    intro o ho
    obtain ⟨e, he, hoe⟩ := List.mem_map.mp ho
    cases hek : e.1 with
    | str s =>
      have := (mergeState_strEntry apps e he s hek).2.1
      rw [← hoe]
      exact this
    | sym n =>
      exfalso
      obtain ⟨a, ha, -, ht⟩ := mergeState_symEntry apps e he
        (by intro s; rw [hek]; simp)
      exact h a ha ht
  unfold inputAfterMerge
  have hfn : ∀ a : App,
      (mergeByBundle apps).find?
        (fun o => o.ident.isSome && decide (o.ident = a.ident)) = none := by
    intro a
    rw [List.find?_eq_none]
    intro o ho
    rw [hout o ho]
    simp
  have hmap : ∀ a ∈ apps,
      (match (mergeByBundle apps).find?
          (fun o => o.ident.isSome && decide (o.ident = a.ident)) with
        | some o => o
        | none => a) = a := by
    intro a ha
    rw [hfn a]
  exact (List.map_congr_left hmap).trans (List.map_id apps)

theorem c10_amended_no_mutation_witness :
    (∀ a ∈ [({ ident := some 0, bundle := "keep" } : App)], jsTrim a.bundle ≠ "")
    ∧ inputAfterMerge [({ ident := some 0, bundle := "keep" } : App)]
        = [({ ident := some 0, bundle := "keep" } : App)] :=
  ⟨by decide,
   c10_amended_no_mutation [{ ident := some 0, bundle := "keep" }] (by decide)⟩

theorem c9_amended_asRepository_witness :
    (jIsObjectish JVal.jNull = false
      ∧ asRepository JVal.jNull = .error "Invalid repository data")
    ∧ (jIsObjectish (JVal.jObj []) = true ∧ wfDoc (JVal.jObj []) = true
      ∧ exIsOk (asRepository (JVal.jObj [])) = true) :=
  ⟨⟨by decide, (c9_amended_asRepository JVal.jNull).1 (by decide)⟩,
   ⟨by decide, by decide,
    ((c9_amended_asRepository (JVal.jObj [])).2 (by decide) (by decide)).1⟩⟩
